import Mathlib

/-!
# Expression calculator: tokenizer, shunting-yard converter, evaluator

A shallow embedding of `src/源.cpp`.

* `std::string` is `String`; the character loop of `tokenize` runs over the
  character list of the input, with the character at `i - 1` carried along.
* `std::vector<Token>` is `List Token` (appending at the end), `std::stack`
  is a `List` whose head is the top.
* Every `throw std::invalid_argument` site is one constructor of `Err`;
  a function that can throw returns `Except Err _`.
* `double` and the library functions on it (`std::stod`, `fmod`, `pow`, the
  arithmetic operators, the test `b == 0`) are a parameter `Arith α`; the
  theorems hold for every interpretation. `exactArith` is the unrounded
  interpretation used to compute the spec's numeric examples.
* `int parenCount` is `Int` (its overflow would need 2^31 parenthesis tokens).
-/

namespace Calculator

/-! ## Data model (lines 10-23) -/

inductive TokenType where
  | NUMBER
  | OPERATOR
  | LPAREN
  | RPAREN
  deriving DecidableEq, Repr

structure Token where
  type : TokenType
  value : String
  deriving DecidableEq, Repr

/-- One constructor per `throw` site of the source, in source order. -/
inductive Err where
  /-- line 87: illegal character in `tokenize` -/
  | invalidChar (c : Char)
  /-- line 114: `parenCount < 0` at a right parenthesis -/
  | extraRightParen
  /-- line 121: the stack emptied while looking for the left parenthesis -/
  | missingLeftParen
  /-- line 150: `parenCount != 0` at the end of the input -/
  | missingRightParen
  /-- line 156: a left parenthesis met by the final drain -/
  | leftParenOnStack
  /-- line 172: `/` with `b == 0` -/
  | divByZero
  /-- line 179: `%` with `b == 0` -/
  | modByZero
  /-- line 186: operator text not recognised by `calculate` -/
  | unknownOperator (op : String)
  /-- line 201: `std::stod` threw -/
  | badNumber (text : String)
  /-- line 208: operator with fewer than two operands on the stack -/
  | missingOperand
  /-- line 219: final stack size is not 1 -/
  | extraOperand
  deriving DecidableEq, Repr

/-- The error kinds of the spec's taxonomy (section 7). -/
inductive ErrKind where
  | InvalidCharacter
  | UnbalancedParenthesis
  | InvalidNumberLiteral
  | MalformedExpression
  | DivisionByZero
  | UnknownOperator
  deriving DecidableEq, Repr

/-- The spec's error kind of each `throw` site. -/
def Err.kind : Err → ErrKind
  | .invalidChar _ => .InvalidCharacter
  | .extraRightParen => .UnbalancedParenthesis
  | .missingLeftParen => .UnbalancedParenthesis
  | .missingRightParen => .UnbalancedParenthesis
  | .leftParenOnStack => .UnbalancedParenthesis
  | .divByZero => .DivisionByZero
  | .modByZero => .DivisionByZero
  | .unknownOperator _ => .UnknownOperator
  | .badNumber _ => .InvalidNumberLiteral
  | .missingOperand => .MalformedExpression
  | .extraOperand => .MalformedExpression

/-! ## Operator metadata (lines 26-37) -/

def getPriority (op : String) : Int :=
  if op = "+" ∨ op = "-" then 1
  else if op = "*" ∨ op = "/" ∨ op = "%" then 2
  else if op = "^" ∨ op = "**" then 3
  else 0

def isLeftAssociative (op : String) : Bool :=
  if op = "^" ∨ op = "**" then false else true

/-! ## Lexer (lines 40-92) -/

/-- `isspace` in the "C" locale: space, `\t`, `\n`, `\v`, `\f`, `\r`. -/
def isspace (c : Char) : Bool :=
  c = ' ' ∨ (9 ≤ c.toNat ∧ c.toNat ≤ 13)

/-- `isdigit`: the ten decimal digits. -/
def isdigit (c : Char) : Bool :=
  48 ≤ c.toNat ∧ c.toNat ≤ 57

/-- The test of line 61. -/
def isOperatorChar (c : Char) : Bool :=
  c = '+' ∨ c = '-' ∨ c = '*' ∨ c = '/' ∨ c = '%' ∨ c = '^'

/-- The lookback test of lines 63-65 on the character at `i - 1`
(`none` when `i == 0`). -/
def signContext : Option Char → Bool
  | none => true
  | some p => p = '(' ∨ p = '+' ∨ p = '-' ∨ p = '*' ∨ p = '/' ∨ p = '%' ∨ p = '^'

/-- The lookahead test of line 55 on the rest of the input after position `i`:
`i + 1 >= len || (!isdigit(expr[i+1]) && expr[i+1] != '.')`. -/
def numberEnds : List Char → Bool
  | [] => true
  | d :: _ => !isdigit d && d ≠ '.'

/-- The `for` loop of `tokenize` (lines 45-89). `prev` is `expr[i-1]`, the list
is `expr[i..]`, `tokens` and `numBuffer` are the two locals. -/
def tokenizeLoop : Option Char → List Char → List Token → String →
    Except Err (List Token)
  | _, [], tokens, _ => .ok tokens
  | prev, c :: rest, tokens, numBuffer =>
    if isspace c then tokenizeLoop (some c) rest tokens numBuffer
    else if isdigit c ∨ c = '.' then
      if numberEnds rest then
        tokenizeLoop (some c) rest (tokens ++ [⟨.NUMBER, numBuffer.push c⟩]) ""
      else
        tokenizeLoop (some c) rest tokens (numBuffer.push c)
    else if isOperatorChar c then
      if (c = '+' ∨ c = '-') ∧ signContext prev then
        tokenizeLoop (some c) rest tokens (numBuffer.push c)
      else
        match rest with
        | d :: rest2 =>
          if c = '*' ∧ d = '*' then
            tokenizeLoop (some d) rest2 (tokens ++ [⟨.OPERATOR, "**"⟩]) numBuffer
          else
            tokenizeLoop (some c) (d :: rest2)
              (tokens ++ [⟨.OPERATOR, String.singleton c⟩]) numBuffer
        | [] =>
          tokenizeLoop (some c) [] (tokens ++ [⟨.OPERATOR, String.singleton c⟩]) numBuffer
    else if c = '(' then
      tokenizeLoop (some c) rest (tokens ++ [⟨.LPAREN, "("⟩]) numBuffer
    else if c = ')' then
      tokenizeLoop (some c) rest (tokens ++ [⟨.RPAREN, ")"⟩]) numBuffer
    else .error (.invalidChar c)

def tokenize (expr : String) : Except Err (List Token) :=
  tokenizeLoop none expr.toList [] ""

/-! ## Shunting-yard converter (lines 95-163) -/

/-- The pop test of lines 135-136. -/
def shouldPop (currOp topOp : String) : Bool :=
  (isLeftAssociative currOp ∧ getPriority currOp ≤ getPriority topOp) ∨
  (¬ isLeftAssociative currOp ∧ getPriority currOp < getPriority topOp)

/-- The `while` loop of lines 116-119: move stack entries to the output until
the stack is empty or its top is a left parenthesis. -/
def popToLParen : List Token → List Token → List Token × List Token
  | out, [] => (out, [])
  | out, top :: st =>
    if top.type ≠ .LPAREN then popToLParen (out ++ [top]) st else (out, top :: st)

/-- The `while` loop of lines 128-143 for the operator `currOp`. -/
def popOperators (currOp : String) : List Token → List Token → List Token × List Token
  | out, [] => (out, [])
  | out, top :: st =>
    if top.type = .OPERATOR then
      if shouldPop currOp top.value then popOperators currOp (out ++ [top]) st
      else (out, top :: st)
    else (out, top :: st)

/-- The locals of `infixToPostfix`: the output vector, the operator stack
(top first) and the parenthesis counter. -/
structure ConvState where
  out : List Token
  opStack : List Token
  parenCount : Int
  deriving DecidableEq, Repr

/-- One iteration of the `for` loop of lines 100-146. -/
def convStep (s : ConvState) (token : Token) : Except Err ConvState :=
  match token.type with
  | .NUMBER => .ok { s with out := s.out ++ [token] }
  | .LPAREN => .ok { s with opStack := token :: s.opStack, parenCount := s.parenCount + 1 }
  | .RPAREN =>
    if s.parenCount - 1 < 0 then .error .extraRightParen
    else
      match popToLParen s.out s.opStack with
      | (_, []) => .error .missingLeftParen
      | (out, _ :: st) => .ok { out := out, opStack := st, parenCount := s.parenCount - 1 }
  | .OPERATOR =>
    match popOperators token.value s.out s.opStack with
    | (out, st) => .ok { s with out := out, opStack := token :: st }

/-- The `for` loop of lines 100-146. -/
def convLoop : List Token → ConvState → Except Err ConvState
  | [], s => .ok s
  | token :: rest, s =>
    match convStep s token with
    | .error e => .error e
    | .ok s2 => convLoop rest s2

/-- The final `while` loop of lines 154-160. -/
def drain : List Token → List Token → Except Err (List Token)
  | out, [] => .ok out
  | out, top :: st =>
    if top.type = .LPAREN then .error .leftParenOnStack else drain (out ++ [top]) st

def infixToPostfix (tokens : List Token) : Except Err (List Token) :=
  match convLoop tokens ⟨[], [], 0⟩ with
  | .error e => .error e
  | .ok s =>
    if s.parenCount ≠ 0 then .error .missingRightParen
    else drain s.out s.opStack

/-! ## Evaluator (lines 166-223) -/

/-- The `double` operations the evaluator uses. `stod` is `none` where
`std::stod` throws; `isZero b` is the test `b == 0`. -/
structure Arith (α : Type) where
  stod : String → Option α
  add : α → α → α
  sub : α → α → α
  mul : α → α → α
  div : α → α → α
  fmod : α → α → α
  pow : α → α → α
  isZero : α → Bool

variable {α : Type}

def calculate (A : Arith α) (a b : α) (op : String) : Except Err α :=
  if op = "+" then .ok (A.add a b)
  else if op = "-" then .ok (A.sub a b)
  else if op = "*" then .ok (A.mul a b)
  else if op = "/" then
    if A.isZero b then .error .divByZero else .ok (A.div a b)
  else if op = "%" then
    if A.isZero b then .error .modByZero else .ok (A.fmod a b)
  else if op = "^" ∨ op = "**" then .ok (A.pow a b)
  else .error (.unknownOperator op)

/-- The `for` loop of lines 193-215 on the number stack (top first). A token
that is neither a number nor an operator matches no branch and is passed over. -/
def evalLoop (A : Arith α) : List Token → List α → Except Err (List α)
  | [], numStack => .ok numStack
  | token :: rest, numStack =>
    match token.type with
    | .NUMBER =>
      match A.stod token.value with
      | none => .error (.badNumber token.value)
      | some num => evalLoop A rest (num :: numStack)
    | .OPERATOR =>
      match numStack with
      | b :: a :: st =>
        match calculate A a b token.value with
        | .error e => .error e
        | .ok res => evalLoop A rest (res :: st)
      | _ => .error .missingOperand
    | _ => evalLoop A rest numStack

def evaluatePostfix (A : Arith α) (tokens : List Token) : Except Err α :=
  match evalLoop A tokens [] with
  | .error e => .error e
  | .ok [res] => .ok res
  | .ok _ => .error .extraOperand

/-! ## Facade (lines 226-238) -/

def calculateExpression (A : Arith α) (expr : String) : Except Err α :=
  match tokenize expr with
  | .error e => .error e
  | .ok tokens =>
    match infixToPostfix tokens with
    | .error e => .error e
    | .ok output => evaluatePostfix A output

/-! ## Exact interpretation of the arithmetic -/

instance instDecidableEqExcept {ε β : Type} [DecidableEq ε] [DecidableEq β] :
    DecidableEq (Except ε β)
  | .ok a, .ok b =>
    if h : a = b then isTrue (by rw [h]) else isFalse (fun h2 => h (by cases h2; rfl))
  | .error a, .error b =>
    if h : a = b then isTrue (by rw [h]) else isFalse (fun h2 => h (by cases h2; rfl))
  | .ok _, .error _ => isFalse (fun h => by cases h)
  | .error _, .ok _ => isFalse (fun h => by cases h)

/-- Value of a digit string read in base ten. -/
def digitsValue (ds : List Char) : Nat :=
  ds.foldl (fun acc d => 10 * acc + (d.toNat - 48)) 0

/-- Natural power by repeated multiplication. -/
def ratNPow (a : ℚ) : Nat → ℚ
  | 0 => 1
  | n + 1 => ratNPow a n * a

/-- The decimal fragment of `std::stod`: leading whitespace is skipped, an
optional sign is read, then the longest run `digits [. digits]` with at least
one digit; what follows is ignored, and without any digit the conversion
throws. Exponents, hexadecimal literals, `inf` and `nan` are not part of the
fragment, nor is the range check. -/
def stodDecimal (text : String) : Option ℚ :=
  let cs := text.toList.dropWhile isspace
  let neg : Bool := cs.head? = some '-'
  let body := if cs.head? = some '-' ∨ cs.head? = some '+' then cs.tail else cs
  let intPart := body.takeWhile isdigit
  let afterInt := body.dropWhile isdigit
  let fracPart := if afterInt.head? = some '.' then afterInt.tail.takeWhile isdigit else []
  if intPart = [] ∧ fracPart = [] then none
  else
    let v : ℚ := (digitsValue intPart : ℚ) +
      (digitsValue fracPart : ℚ) / ratNPow 10 fracPart.length
    some (if neg then -v else v)

/-- `fmod` without rounding: the remainder of the division truncated toward zero. -/
def ratFmod (a b : ℚ) : ℚ :=
  let q := a / b
  a - b * (if 0 ≤ q then (Rat.floor q : ℚ) else (Rat.ceil q : ℚ))

/-- `pow` without rounding, where the result is rational for certain: an
integral exponent and not a negative power of zero. -/
def ratPow (a b : ℚ) : Option ℚ :=
  if b.den = 1 then
    match b.num with
    | .ofNat n => some (ratNPow a n)
    | .negSucc n => if a = 0 then none else some (ratNPow a (n + 1))⁻¹
  else none

/-- Unrounded arithmetic on the rationals, for computing concrete examples. A
value is `some q` when it is the exact rational `q`, and `none` when it lies
outside the exact fragment (an infinity, a NaN or an irrational power); `none`
is absorbing and is not zero. On the small integers of the spec's examples every
double operation is exact, so IEEE-754 arithmetic gives the same values. -/
def exactArith : Arith (Option ℚ) where
  stod text := (stodDecimal text).map some
  add a b := a.bind fun x => b.map fun y => x + y
  sub a b := a.bind fun x => b.map fun y => x - y
  mul a b := a.bind fun x => b.map fun y => x * y
  div a b := a.bind fun x => b.bind fun y => if y = 0 then none else some (x / y)
  fmod a b := a.bind fun x => b.bind fun y => if y = 0 then none else some (ratFmod x y)
  pow a b := a.bind fun x => b.bind fun y => ratPow x y
  isZero b := b = some 0

/-! ## Specification vocabulary -/

/-- Expression trees over numbers (kept as their literal text) and binary
operators (kept as their text). -/
inductive Expr where
  | num (text : String)
  | bin (op : String) (left right : Expr)
  deriving DecidableEq, Repr

/-- Post-order traversal: left subtree, right subtree, operator. -/
def postorder : Expr → List Token
  | .num text => [⟨.NUMBER, text⟩]
  | .bin op l r => postorder l ++ postorder r ++ [⟨.OPERATOR, op⟩]

/-- Recursive evaluation of a tree: a leaf is the value of its literal, a node
is `calculate` applied to (left value, right value). -/
def evalTree (A : Arith α) : Expr → Except Err α
  | .num text =>
    match A.stod text with
    | none => .error (.badNumber text)
    | some v => .ok v
  | .bin op l r =>
    match evalTree A l with
    | .error e => .error e
    | .ok a =>
      match evalTree A r with
      | .error e => .error e
      | .ok b => calculate A a b op

/-- The operators of each precedence level of the standard grammar. -/
def levelOps : Nat → List String
  | 1 => ["+", "-"]
  | 2 => ["*", "/", "%"]
  | 3 => ["^", "**"]
  | _ => []

/-- `Renders k e ts`: the token sequence `ts` is an infix rendering of the tree
`e` as an expression of level `k` of the standard precedence grammar
```
E1 ::= E1 (+|-) E2 | E2          E2 ::= E2 (*|/|%) E3 | E3
E3 ::= E4 (^|**) E3 | E4         E4 ::= number | ( E1 )
```
Levels 1 and 2 are left-associative, level 3 is right-associative, level 4 is
the atoms. -/
inductive Renders : Nat → Expr → List Token → Prop where
  | number (text : String) : Renders 4 (.num text) [⟨.NUMBER, text⟩]
  | paren {e : Expr} {ts : List Token} :
      Renders 1 e ts → Renders 4 e (⟨.LPAREN, "("⟩ :: ts ++ [⟨.RPAREN, ")"⟩])
  | up {k : Nat} {e : Expr} {ts : List Token} :
      1 ≤ k → k ≤ 3 → Renders (k + 1) e ts → Renders k e ts
  | leftAssoc {k : Nat} {op : String} {a b : Expr} {ts1 ts2 : List Token} :
      k = 1 ∨ k = 2 → op ∈ levelOps k → Renders k a ts1 → Renders (k + 1) b ts2 →
      Renders k (.bin op a b) (ts1 ++ ⟨.OPERATOR, op⟩ :: ts2)
  | rightAssoc {op : String} {a b : Expr} {ts1 ts2 : List Token} :
      op ∈ levelOps 3 → Renders 4 a ts1 → Renders 3 b ts2 →
      Renders 3 (.bin op a b) (ts1 ++ ⟨.OPERATOR, op⟩ :: ts2)

/-- A non-empty string of decimal digits. -/
def DigitString (s : String) : Prop :=
  s.toList ≠ [] ∧ ∀ c ∈ s.toList, isdigit c = true

/-- An unsigned numeric literal: a digit string, optionally followed by one
fractional part (a dot and a digit string). -/
def UnsignedLiteral (s : String) : Prop :=
  DigitString s ∨ ∃ i f : String, DigitString i ∧ DigitString f ∧ s = i ++ "." ++ f

/-- The alphabet of the lexer: digits, the dot, whitespace, the six operator
characters and the two parentheses. -/
def accepted (c : Char) : Bool :=
  isdigit c ∨ c = '.' ∨ isspace c ∨ isOperatorChar c ∨ c = '(' ∨ c = ')'

/-- Number of left parentheses minus number of right parentheses. -/
def parenBalance : List Token → Int
  | [] => 0
  | t :: ts =>
    (if t.type = .LPAREN then 1 else if t.type = .RPAREN then -1 else 0) + parenBalance ts

/-- Unbalanced parenthesis tokens: some prefix closes more than it opened, or
the whole sequence opens more than it closes. -/
def Unbalanced (tokens : List Token) : Prop :=
  (∃ pre, pre <+: tokens ∧ parenBalance pre < 0) ∨ 0 < parenBalance tokens

/-- Height of a token sequence: number of Number tokens minus number of
Operator tokens. -/
def height : List Token → Int
  | [] => 0
  | t :: ts =>
    (if t.type = .NUMBER then 1 else if t.type = .OPERATOR then -1 else 0) + height ts

/-- Operand-count discipline of a postfix sequence: the height is at least 2
just before every Operator token, and the height of the whole sequence is 1. -/
def OperandDiscipline (tokens : List Token) : Prop :=
  (∀ pre t post, tokens = pre ++ t :: post → t.type = .OPERATOR → 2 ≤ height pre) ∧
    height tokens = 1

/-! ## Proof vocabulary for the converter -/

/-- The stack `st` is not touched by the pop loop of any operator of level `k`
or higher. -/
def NoPop (k : Nat) (st : List Token) : Prop :=
  ∀ j op, k ≤ j → op ∈ levelOps j → ∀ out, popOperators op out st = (out, st)

/-- Every entry of `pending` is an operator token of priority at least `k`. -/
def Pending (k : Nat) (pending : List Token) : Prop :=
  ∀ t ∈ pending, t.type = .OPERATOR ∧ (k : Int) ≤ getPriority t.value

/-- Number of left-parenthesis tokens in a stack. -/
def countLParen : List Token → Int
  | [] => 0
  | t :: st => (if t.type = .LPAREN then 1 else 0) + countLParen st

/-- The counter of a converter state equals the number of left parentheses on
its stack. -/
def CounterInv (s : ConvState) : Prop :=
  s.parenCount = countLParen s.opStack

/-- The converter state after the tokens `seen`: the output holds only numbers
and operators, the stack only operators and left parentheses; the output together
with the operators on the stack is a rearrangement of the numbers and operators
seen; and the numbers of the output are the numbers seen, in the same order. -/
def Reordering (seen : List Token) (s : ConvState) : Prop :=
  (∀ t ∈ s.out, t.type = .NUMBER ∨ t.type = .OPERATOR) ∧
  (∀ t ∈ s.opStack, t.type = .OPERATOR ∨ t.type = .LPAREN) ∧
  List.Perm (s.out ++ s.opStack.filter (fun t => t.type = .OPERATOR))
    (seen.filter (fun t => t.type = .NUMBER ∨ t.type = .OPERATOR)) ∧
  s.out.filter (fun t => t.type = .NUMBER) = seen.filter (fun t => t.type = .NUMBER)

/-! # Theorems -/

/-! ## Converter: loop lemmas -/

theorem convLoop_append (ts1 ts2 : List Token) (s : ConvState) :
    convLoop (ts1 ++ ts2) s =
      match convLoop ts1 s with
      | .error e => .error e
      | .ok s2 => convLoop ts2 s2 := by
  induction ts1 generalizing s with
  | nil => simp [convLoop]
  | cons t ts ih =>
    simp only [List.cons_append, convLoop]
    cases h : convStep s t with
    | error e => simp
    | ok s2 => simpa using ih s2

theorem getPriority_of_mem_levelOps {k : Nat} {op : String} (h : op ∈ levelOps k) :
    getPriority op = k := by
  match k, h with
  | 1, h => simp [levelOps] at h; rcases h with rfl | rfl <;> decide
  | 2, h => simp [levelOps] at h; rcases h with rfl | rfl | rfl <;> decide
  | 3, h => simp [levelOps] at h; rcases h with rfl | rfl <;> decide
  | 0, h => simp [levelOps] at h
  | n + 4, h => simp [levelOps] at h

theorem isLeftAssociative_of_mem_levelOps {k : Nat} {op : String} (h : op ∈ levelOps k) :
    isLeftAssociative op = decide (k ≠ 3) := by
  match k, h with
  | 1, h => simp [levelOps] at h; rcases h with rfl | rfl <;> decide
  | 2, h => simp [levelOps] at h; rcases h with rfl | rfl | rfl <;> decide
  | 3, h => simp [levelOps] at h; rcases h with rfl | rfl <;> decide
  | 0, h => simp [levelOps] at h
  | n + 4, h => simp [levelOps] at h

theorem popOperators_pending {k : Nat} {op : String} (hk : k = 1 ∨ k = 2)
    (hop : op ∈ levelOps k) (pending : List Token) (hp : Pending k pending)
    (out st : List Token) :
    popOperators op out (pending ++ st) = popOperators op (out ++ pending) st := by
  induction pending generalizing out with
  | nil => simp
  | cons t ts ih =>
    have ht := hp t (List.mem_cons_self _ _)
    have hts : Pending k ts := fun u hu => hp u (List.mem_cons_of_mem _ hu)
    have hpri := getPriority_of_mem_levelOps hop
    have hleft : isLeftAssociative op = true := by
      rw [isLeftAssociative_of_mem_levelOps hop]; rcases hk with rfl | rfl <;> decide
    have hpop : shouldPop op t.value = true := by
      simp [shouldPop, hleft, hpri, ht.2]
    rw [List.cons_append, popOperators]
    simp only [ht.1, hpop, if_true]
    rw [ih hts]; simp

theorem popToLParen_pending {k : Nat} (pending : List Token) (hp : Pending k pending)
    (out : List Token) (top : Token) (htop : top.type = .LPAREN) (st : List Token) :
    popToLParen out (pending ++ top :: st) = (out ++ pending, top :: st) := by
  induction pending generalizing out with
  | nil => simp [popToLParen, htop]
  | cons t ts ih =>
    have ht := hp t (List.mem_cons_self _ _)
    have hts : Pending k ts := fun u hu => hp u (List.mem_cons_of_mem _ hu)
    rw [List.cons_append, popToLParen, ht.1, if_pos (by decide), ih hts]; simp

theorem drain_pending {k : Nat} (pending : List Token) (hp : Pending k pending)
    (out : List Token) : drain out pending = .ok (out ++ pending) := by
  induction pending generalizing out with
  | nil => simp [drain]
  | cons t ts ih =>
    have ht := hp t (List.mem_cons_self _ _)
    have hts : Pending k ts := fun u hu => hp u (List.mem_cons_of_mem _ hu)
    simp only [drain, ht.1]
    rw [if_neg (by decide), ih hts]; simp

theorem noPop_nil (k : Nat) : NoPop k [] := by
  intro j op _ _ out; simp [popOperators]

theorem noPop_lparen (k : Nat) (top : Token) (htop : top.type = .LPAREN) (st : List Token) :
    NoPop k (top :: st) := by
  intro j op _ _ out; simp [popOperators, htop]

theorem noPop_mono {k j : Nat} (h : k ≤ j) {st : List Token} (hst : NoPop k st) :
    NoPop j st := fun i op hi hop out => hst i op (le_trans h hi) hop out

/-- An operator of level `k` on top of the stack is not popped by an operator
of a higher level, nor by one of level 3 when `k = 3`. -/
theorem noPop_push {k j : Nat} {op : String} (hop : op ∈ levelOps k)
    (hj : k < j ∨ (k = 3 ∧ j = 3)) (st : List Token) :
    NoPop j (⟨.OPERATOR, op⟩ :: st) := by
  intro i op2 hi hop2 out
  have h1 := getPriority_of_mem_levelOps hop
  have h2 := getPriority_of_mem_levelOps hop2
  have h3 := isLeftAssociative_of_mem_levelOps hop2
  have hi3 : i ≤ 3 := by
    match i, hop2 with
    | 0, _ => omega
    | 1, _ => omega
    | 2, _ => omega
    | 3, _ => omega
    | n + 4, h => simp [levelOps] at h
  have hpop : shouldPop op2 op = false := by
    simp only [shouldPop, h1, h2, h3]
    rcases hj with hj | ⟨rfl, rfl⟩
    · have : ¬ ((i : Int) ≤ (k : Int)) := by omega
      have : ¬ ((i : Int) < (k : Int)) := by omega
      simp [*]
    · have : i = 3 := by omega
      subst this; simp
  simp [popOperators, hpop]

/-- Converting a rendering of level `k` from any state whose stack top blocks
the operators of level `k` and above: the input stack and the counter are left
as they were, and the output grown by `emitted` together with the operators
left `pending` on top of the stack spell the post-order traversal. -/
theorem convLoop_renders {k : Nat} {e : Expr} {ts : List Token} (h : Renders k e ts) :
    ∀ (out st : List Token) (c : Int), 0 ≤ c → NoPop k st →
      ∃ emitted pending, convLoop ts ⟨out, st, c⟩ = .ok ⟨out ++ emitted, pending ++ st, c⟩ ∧
        emitted ++ pending = postorder e ∧ Pending k pending ∧ (k = 4 → pending = []) := by
  induction h with
  | number text =>
    intro out st c _ _
    exact ⟨[⟨.NUMBER, text⟩], [], by simp [convLoop, convStep], by simp [postorder],
      by simp [Pending], fun _ => rfl⟩
  | @paren e ts _ ih =>
    intro out st c hc _
    obtain ⟨em, pe, hrun, hpost, hpend, -⟩ :=
      ih out (⟨.LPAREN, "("⟩ :: st) (c + 1) (by omega) (noPop_lparen 1 _ rfl st)
    refine ⟨em ++ pe, [], ?_, by simpa using hpost, by simp [Pending], fun _ => rfl⟩
    have hstep : convStep ⟨out, st, c⟩ ⟨.LPAREN, "("⟩ = .ok ⟨out, ⟨.LPAREN, "("⟩ :: st, c + 1⟩ := by
      simp [convStep]
    have hneg : ¬ (c < 0) := by omega
    rw [List.cons_append, convLoop]
    simp only [hstep]
    rw [convLoop_append]
    simp only [hrun]
    simp [convLoop, convStep, hneg, popToLParen_pending pe hpend (out ++ em) ⟨.LPAREN, "("⟩ rfl st]
  | @up k e ts hk1 hk3 _ ih =>
    intro out st c hc hst
    obtain ⟨em, pe, hrun, hpost, hpend, -⟩ := ih out st c hc (noPop_mono (Nat.le_succ k) hst)
    refine ⟨em, pe, hrun, hpost, ?_, fun h4 => by omega⟩
    intro t ht
    have := hpend t ht
    exact ⟨this.1, by have := this.2; push_cast at this; omega⟩
  | @leftAssoc k op a b ts1 ts2 hk hop _ _ iha ihb =>
    intro out st c hc hst
    obtain ⟨em1, pe1, hrun1, hpost1, hpend1, -⟩ := iha out st c hc hst
    obtain ⟨em2, pe2, hrun2, hpost2, hpend2, -⟩ :=
      ihb (out ++ em1 ++ pe1) (⟨.OPERATOR, op⟩ :: st) c hc
        (noPop_push hop (Or.inl (Nat.lt_succ_self k)) st)
    refine ⟨em1 ++ pe1 ++ em2, pe2 ++ [⟨.OPERATOR, op⟩], ?_, ?_, ?_, fun h4 => by omega⟩
    · have hstep : convStep ⟨out ++ em1, pe1 ++ st, c⟩ ⟨.OPERATOR, op⟩ =
          .ok ⟨out ++ em1 ++ pe1, ⟨.OPERATOR, op⟩ :: st, c⟩ := by
        simp [convStep, popOperators_pending hk hop pe1 hpend1, hst k op le_rfl hop]
      simp only [convLoop_append, hrun1, convLoop, hstep, hrun2]
      simp
    · simp [postorder, ← hpost1, ← hpost2]
    · intro t ht
      rcases List.mem_append.1 ht with ht | ht
      · have := hpend2 t ht
        exact ⟨this.1, by have := this.2; push_cast at this; omega⟩
      · simp at ht; subst ht
        exact ⟨rfl, by simp [getPriority_of_mem_levelOps hop]⟩
  | @rightAssoc op a b ts1 ts2 hop _ _ iha ihb =>
    intro out st c hc hst
    obtain ⟨em1, pe1, hrun1, hpost1, -, hnil⟩ := iha out st c hc (noPop_mono (by omega) hst)
    have hpe1 : pe1 = [] := hnil rfl
    subst hpe1
    obtain ⟨em2, pe2, hrun2, hpost2, hpend2, -⟩ :=
      ihb (out ++ em1) (⟨.OPERATOR, op⟩ :: st) c hc
        (noPop_push hop (Or.inr ⟨rfl, rfl⟩) st)
    refine ⟨em1 ++ em2, pe2 ++ [⟨.OPERATOR, op⟩], ?_, ?_, ?_, fun h4 => by omega⟩
    · have hstep : convStep ⟨out ++ em1, st, c⟩ ⟨.OPERATOR, op⟩ =
          .ok ⟨out ++ em1, ⟨.OPERATOR, op⟩ :: st, c⟩ := by
        simp [convStep, hst 3 op le_rfl hop]
      simp only [List.nil_append] at hrun1
      simp only [convLoop_append, hrun1, convLoop, hstep, hrun2]
      simp
    · simp at hpost1
      simp [postorder, ← hpost1, ← hpost2]
    · intro t ht
      rcases List.mem_append.1 ht with ht | ht
      · exact hpend2 t ht
      · simp at ht; subst ht
        exact ⟨rfl, by simp [getPriority_of_mem_levelOps hop]⟩

/-! ## Evaluator: post-order traversals -/

theorem evalLoop_postorder (A : Arith α) (e : Expr) (rest : List Token) (numStack : List α) :
    evalLoop A (postorder e ++ rest) numStack =
      match evalTree A e with
      | .error err => .error err
      | .ok v => evalLoop A rest (v :: numStack) := by
  induction e generalizing rest numStack with
  | num text =>
    simp only [postorder, List.singleton_append, evalLoop, evalTree]
    cases A.stod text <;> rfl
  | bin op l r ihl ihr =>
    simp only [postorder, List.append_assoc, evalTree]
    rw [ihl]
    cases hl : evalTree A l with
    | error err => rfl
    | ok a =>
      simp only []
      rw [ihr]
      cases hr : evalTree A r with
      | error err => rfl
      | ok b =>
        simp only [List.singleton_append, evalLoop]
        cases calculate A a b op <;> rfl

theorem evaluatePostfix_postorder (A : Arith α) (e : Expr) :
    evaluatePostfix A (postorder e) = evalTree A e := by
  have h := evalLoop_postorder A e [] []
  rw [List.append_nil] at h
  rw [evaluatePostfix, h]
  cases evalTree A e <;> simp [evalLoop]

/-- C1. Shunting-yard correctness: for every expression tree `e` and every
token sequence `ts` that renders `e` in the standard precedence grammar
(`Renders 1 e ts`), `infixToPostfix ts` succeeds with exactly the post-order
traversal of `e`, and for every arithmetic `evaluatePostfix` of that output is
the recursive evaluation of the tree with `calculate` applied to (left, right)
at each node: the same value when no node fails, the same error otherwise. -/
theorem infixToPostfix_renders (e : Expr) (ts : List Token) (h : Renders 1 e ts) :
    infixToPostfix ts = .ok (postorder e) ∧
      ∀ {β : Type} (A : Arith β), evaluatePostfix A (postorder e) = evalTree A e := by
  refine ⟨?_, fun A => evaluatePostfix_postorder A e⟩
  obtain ⟨em, pe, hrun, hpost, hpend, -⟩ := convLoop_renders h [] [] 0 le_rfl (noPop_nil 1)
  simp only [List.nil_append, List.append_nil] at hrun
  simp only [infixToPostfix, hrun]
  simp [drain_pending pe hpend, hpost]

/-- Witness for C1: the rendering `2 * ( 1 + 3 ) ^ 2 ^ 1 - 4` of the tree
`(2 * ((1 + 3) ^ (2 ^ 1))) - 4`. -/
theorem infixToPostfix_renders_witness :
    infixToPostfix
        [⟨.NUMBER, "2"⟩, ⟨.OPERATOR, "*"⟩, ⟨.LPAREN, "("⟩, ⟨.NUMBER, "1"⟩, ⟨.OPERATOR, "+"⟩,
          ⟨.NUMBER, "3"⟩, ⟨.RPAREN, ")"⟩, ⟨.OPERATOR, "^"⟩, ⟨.NUMBER, "2"⟩, ⟨.OPERATOR, "^"⟩,
          ⟨.NUMBER, "1"⟩, ⟨.OPERATOR, "-"⟩, ⟨.NUMBER, "4"⟩] =
      .ok (postorder (.bin "-" (.bin "*" (.num "2")
        (.bin "^" (.bin "+" (.num "1") (.num "3")) (.bin "^" (.num "2") (.num "1"))))
        (.num "4"))) ∧
      ∀ {β : Type} (A : Arith β),
        evaluatePostfix A (postorder (.bin "-" (.bin "*" (.num "2")
          (.bin "^" (.bin "+" (.num "1") (.num "3")) (.bin "^" (.num "2") (.num "1"))))
          (.num "4"))) =
        evalTree A (.bin "-" (.bin "*" (.num "2")
          (.bin "^" (.bin "+" (.num "1") (.num "3")) (.bin "^" (.num "2") (.num "1"))))
          (.num "4")) :=
  infixToPostfix_renders _ _
    (Renders.leftAssoc (k := 1) (Or.inl rfl) (by decide)
      (Renders.up (by decide) (by decide)
        (Renders.leftAssoc (k := 2) (Or.inr rfl) (by decide)
          (Renders.up (by decide) (by decide) (Renders.up (by decide) (by decide)
            (Renders.number "2")))
          (Renders.rightAssoc (by decide)
            (Renders.paren
              (Renders.leftAssoc (k := 1) (Or.inl rfl) (by decide)
                (Renders.up (by decide) (by decide) (Renders.up (by decide) (by decide)
                  (Renders.up (by decide) (by decide) (Renders.number "1"))))
                (Renders.up (by decide) (by decide) (Renders.up (by decide) (by decide)
                  (Renders.number "3")))))
            (Renders.rightAssoc (by decide) (Renders.number "2")
              (Renders.up (by decide) (by decide) (Renders.number "1"))))))
      (Renders.up (by decide) (by decide) (Renders.up (by decide) (by decide)
        (Renders.number "4"))))

/-! ## Lexer: character classes and runs of number characters -/

theorem isdigit_facts {c : Char} (h : isdigit c = true) :
    isspace c = false ∧ isOperatorChar c = false ∧ signContext (some c) = false ∧
      c ≠ '.' ∧ c ≠ '*' ∧ c ≠ '(' ∧ c ≠ ')' := by
  have hne : ∀ d : Char, isdigit d = false → c ≠ d := by
    intro d hd hcd; rw [hcd, hd] at h; cases h
  have hb : 48 ≤ c.toNat ∧ c.toNat ≤ 57 := by simpa [isdigit] using h
  refine ⟨?_, ?_, ?_, hne _ (by decide), hne _ (by decide), hne _ (by decide),
    hne _ (by decide)⟩
  · simp only [isspace, decide_eq_false_iff_not, not_or, not_and, not_le]
    exact ⟨hne _ (by decide), fun _ => by omega⟩
  · simp only [isOperatorChar, decide_eq_false_iff_not, not_or]
    exact ⟨hne _ (by decide), hne _ (by decide), hne _ (by decide), hne _ (by decide),
      hne _ (by decide), hne _ (by decide)⟩
  · simp only [signContext, decide_eq_false_iff_not, not_or]
    exact ⟨hne _ (by decide), hne _ (by decide), hne _ (by decide), hne _ (by decide),
      hne _ (by decide), hne _ (by decide), hne _ (by decide)⟩

/-- A character of a number: a digit or the dot. -/
theorem numChar_facts {c : Char} (h : isdigit c = true ∨ c = '.') :
    isspace c = false ∧ signContext (some c) = false ∧ c ≠ '*' := by
  rcases h with h | rfl
  · exact ⟨(isdigit_facts h).1, (isdigit_facts h).2.2.1, (isdigit_facts h).2.2.2.2.1⟩
  · decide

theorem isOperatorChar_facts {c : Char} (h : isOperatorChar c = true) :
    isspace c = false ∧ isdigit c = false ∧ c ≠ '.' ∧ signContext (some c) = true := by
  simp only [isOperatorChar, decide_eq_true_eq] at h
  rcases h with rfl | rfl | rfl | rfl | rfl | rfl <;> decide

theorem numberEnds_cons_numChar {c : Char} (h : isdigit c = true ∨ c = '.') (rest : List Char) :
    numberEnds (c :: rest) = false := by
  rcases h with h | rfl <;> simp [numberEnds, *]

theorem numberEnds_cons_operator {c : Char} (h : isOperatorChar c = true) (rest : List Char) :
    numberEnds (c :: rest) = true := by
  simp [numberEnds, (isOperatorChar_facts h).2.1, (isOperatorChar_facts h).2.2.1]

theorem push_eq_append (buf : String) (c : Char) (cs : List Char) :
    buf.push c ++ String.mk cs = buf ++ String.mk (c :: cs) := by
  apply String.ext; simp

/-- One iteration of the loop of `tokenize`, as an equation. -/
theorem tokenizeLoop_cons (prev : Option Char) (c : Char) (rest : List Char)
    (tokens : List Token) (numBuffer : String) :
    tokenizeLoop prev (c :: rest) tokens numBuffer =
      if isspace c then tokenizeLoop (some c) rest tokens numBuffer
      else if isdigit c ∨ c = '.' then
        if numberEnds rest then
          tokenizeLoop (some c) rest (tokens ++ [⟨.NUMBER, numBuffer.push c⟩]) ""
        else
          tokenizeLoop (some c) rest tokens (numBuffer.push c)
      else if isOperatorChar c then
        if (c = '+' ∨ c = '-') ∧ signContext prev then
          tokenizeLoop (some c) rest tokens (numBuffer.push c)
        else if c = '*' ∧ rest.head? = some '*' then
          tokenizeLoop (some '*') rest.tail (tokens ++ [⟨.OPERATOR, "**"⟩]) numBuffer
        else
          tokenizeLoop (some c) rest (tokens ++ [⟨.OPERATOR, String.singleton c⟩]) numBuffer
      else if c = '(' then
        tokenizeLoop (some c) rest (tokens ++ [⟨.LPAREN, "("⟩]) numBuffer
      else if c = ')' then
        tokenizeLoop (some c) rest (tokens ++ [⟨.RPAREN, ")"⟩]) numBuffer
      else .error (.invalidChar c) := by
  cases rest with
  | nil => rw [tokenizeLoop.eq_def]; simp
  | cons d rest2 =>
    rw [tokenizeLoop.eq_def]
    simp only [List.head?_cons, List.tail_cons, Option.some.injEq]
    by_cases hd : d = '*'
    · subst hd; simp
    · simp [hd]

/-- A non-empty run of digits and dots followed by something that ends a number
becomes one Number token: the buffer extended by the whole run. -/
theorem tokenizeLoop_number_run (cs : List Char) (hne : cs ≠ [])
    (hcs : ∀ c ∈ cs, isdigit c = true ∨ c = '.') (rest : List Char)
    (hrest : numberEnds rest = true) (prev : Option Char) (tokens : List Token)
    (buf : String) :
    ∃ p, (isdigit p = true ∨ p = '.') ∧
      tokenizeLoop prev (cs ++ rest) tokens buf =
        tokenizeLoop (some p) rest (tokens ++ [⟨.NUMBER, buf ++ String.mk cs⟩]) "" := by
  induction cs generalizing prev buf with
  | nil => exact absurd rfl hne
  | cons c cs ih =>
    have hc := hcs c (List.mem_cons_self _ _)
    have hsp := (numChar_facts hc).1
    have hnum : (isdigit c = true ∨ c = '.') = True := eq_true hc
    cases cs with
    | nil =>
      refine ⟨c, hc, ?_⟩
      rw [List.singleton_append, tokenizeLoop_cons]
      simp only [hsp, hnum, hrest, if_true, Bool.false_eq_true, if_false]
      congr 3
    | cons d ds =>
      have hd := hcs d (List.mem_cons_of_mem _ (List.mem_cons_self _ _))
      obtain ⟨p, hp, hrun⟩ := ih (by simp) (fun x hx => hcs x (List.mem_cons_of_mem _ hx))
        (some c) (buf.push c)
      refine ⟨p, hp, ?_⟩
      rw [List.cons_append, tokenizeLoop_cons]
      have hends : numberEnds (d :: ds ++ rest) = false := by
        rw [List.cons_append]; exact numberEnds_cons_numChar hd _
      simp only [hsp, hnum, hends, if_true, Bool.false_eq_true, if_false]
      rw [hrun, push_eq_append]

/-- A one-character operator after a number character, not followed by `*`
when it is `*` itself, becomes one Operator token. -/
theorem tokenizeLoop_operator (p o d : Char) (hp : isdigit p = true ∨ p = '.')
    (ho : isOperatorChar o = true) (hd : o = '*' → d ≠ '*') (rest : List Char)
    (tokens : List Token) (buf : String) :
    tokenizeLoop (some p) (o :: d :: rest) tokens buf =
      tokenizeLoop (some o) (d :: rest) (tokens ++ [⟨.OPERATOR, String.singleton o⟩]) buf := by
  have hfo := isOperatorChar_facts ho
  rw [tokenizeLoop_cons]
  have h1 : ¬ (isdigit o = true ∨ o = '.') := by simp [hfo.2.1, hfo.2.2.1]
  have h2 : ¬ ((o = '+' ∨ o = '-') ∧ signContext (some p) = true) := by
    simp [(numChar_facts hp).2.1]
  have h3 : ¬ (o = '*' ∧ (d :: rest).head? = some '*') := fun h => hd h.1 (by simpa using h.2)
  simp only [hfo.1, h1, ho, h2, h3, if_true, if_false, Bool.false_eq_true]

/-- The two-character operator `**` after a number character. -/
theorem tokenizeLoop_starstar (prev : Option Char)
    (rest : List Char) (tokens : List Token) (buf : String) :
    tokenizeLoop prev ('*' :: '*' :: rest) tokens buf =
      tokenizeLoop (some '*') rest (tokens ++ [⟨.OPERATOR, "**"⟩]) buf := by
  rw [tokenizeLoop_cons]
  have h2 : ¬ (('*' = '+' ∨ '*' = '-') ∧ signContext prev = true) := by
    simp
  simp only [h2, if_false]
  simp [isspace, isdigit, isOperatorChar]

/-- A sign where the lookback test holds goes into the number buffer. -/
theorem tokenizeLoop_sign (prev : Option Char) (hprev : signContext prev = true) (s : Char)
    (hs : s = '+' ∨ s = '-') (rest : List Char) (tokens : List Token) (buf : String) :
    tokenizeLoop prev (s :: rest) tokens buf =
      tokenizeLoop (some s) rest tokens (buf.push s) := by
  rw [tokenizeLoop_cons]
  rcases hs with rfl | rfl <;> simp [isspace, isdigit, isOperatorChar, hprev]


/-! ## Single binary operation -/

theorem digitString_numChars {s : String} (h : DigitString s) :
    s.toList ≠ [] ∧ ∀ c ∈ s.toList, isdigit c = true ∨ c = '.' :=
  ⟨h.1, fun c hc => Or.inl (h.2 c hc)⟩

theorem unsignedLiteral_numChars {s : String} (h : UnsignedLiteral s) :
    s.toList ≠ [] ∧ ∀ c ∈ s.toList, isdigit c = true ∨ c = '.' := by
  rcases h with h | ⟨i, f, hi, hf, rfl⟩
  · exact digitString_numChars h
  · refine ⟨by simp [hi.1], ?_⟩
    intro c hc
    simp only [String.toList, String.data_append, List.mem_append] at hc
    rcases hc with (hc | hc) | hc
    · exact Or.inl (hi.2 c hc)
    · right; simpa using hc
    · exact Or.inl (hf.2 c hc)

/-- A run of number characters at the end of the input. -/
theorem tokenizeLoop_number_end (cs : List Char) (hne : cs ≠ [])
    (hcs : ∀ c ∈ cs, isdigit c = true ∨ c = '.') (prev : Option Char) (tokens : List Token)
    (buf : String) :
    tokenizeLoop prev cs tokens buf = .ok (tokens ++ [⟨.NUMBER, buf ++ String.mk cs⟩]) := by
  obtain ⟨p, -, hrun⟩ := tokenizeLoop_number_run cs hne hcs [] rfl prev tokens buf
  rw [List.append_nil] at hrun
  rw [hrun, tokenizeLoop]

theorem mk_toList (s : String) : String.mk s.toList = s := rfl

/-- Lexing `a op b` for two runs of number characters and one of the seven
operators. -/
theorem tokenize_binary (a b op : String)
    (ha : a.toList ≠ [] ∧ ∀ c ∈ a.toList, isdigit c = true ∨ c = '.')
    (hb : b.toList ≠ [] ∧ ∀ c ∈ b.toList, isdigit c = true ∨ c = '.')
    (hfirst : ∀ d, b.toList.head? = some d → d ≠ '*')
    (hop : op ∈ ["+", "-", "*", "/", "%", "^", "**"]) :
    tokenize (a ++ op ++ b) = .ok [⟨.NUMBER, a⟩, ⟨.OPERATOR, op⟩, ⟨.NUMBER, b⟩] := by
  obtain ⟨d, ds, hbs⟩ : ∃ d ds, b.toList = d :: ds := by
    cases hb' : b.toList with
    | nil => exact absurd hb' hb.1
    | cons d ds => exact ⟨d, ds, rfl⟩
  have hd : d ≠ '*' := hfirst d (by rw [hbs]; rfl)
  have hends : ∀ o : Char, isOperatorChar o = true → ∀ r, numberEnds (o :: r) = true :=
    fun o ho r => numberEnds_cons_operator ho r
  have hlist : (a ++ op ++ b).toList = a.toList ++ (op.toList ++ b.toList) := by
    simp [String.toList]
  have hrunb := tokenizeLoop_number_end b.toList hb.1 hb.2
  have key : ∀ (o : Char), isOperatorChar o = true → op = String.singleton o →
      tokenize (a ++ op ++ b) = .ok [⟨.NUMBER, a⟩, ⟨.OPERATOR, op⟩, ⟨.NUMBER, b⟩] := by
    intro o ho hopo
    have hol : op.toList = [o] := by rw [hopo]; rfl
    obtain ⟨p, hp, hrun⟩ := tokenizeLoop_number_run a.toList ha.1 ha.2
      (op.toList ++ b.toList) (by rw [hol]; exact hends o ho _) none [] ""
    rw [tokenize, hlist, hrun, hol, hbs, List.singleton_append,
      tokenizeLoop_operator p o d hp ho (fun _ => hd), ← hbs]
    rw [hrunb, hopo]
    simp [mk_toList]
  simp only [List.mem_cons, List.mem_singleton, List.not_mem_nil, or_false] at hop
  rcases hop with rfl | rfl | rfl | rfl | rfl | rfl | rfl
  · exact key '+' (by decide) rfl
  · exact key '-' (by decide) rfl
  · exact key '*' (by decide) rfl
  · exact key '/' (by decide) rfl
  · exact key '%' (by decide) rfl
  · exact key '^' (by decide) rfl
  · obtain ⟨p, hp, hrun⟩ := tokenizeLoop_number_run a.toList ha.1 ha.2
      ("**".toList ++ b.toList) (hends '*' (by decide) _) none [] ""
    rw [tokenize, hlist, hrun]
    have h2 : "**".toList ++ b.toList = '*' :: '*' :: b.toList := rfl
    rw [h2, tokenizeLoop_starstar]
    rw [hrunb]
    simp [mk_toList]

theorem infixToPostfix_binary (n1 op n2 : String) :
    infixToPostfix [⟨.NUMBER, n1⟩, ⟨.OPERATOR, op⟩, ⟨.NUMBER, n2⟩] =
      .ok [⟨.NUMBER, n1⟩, ⟨.NUMBER, n2⟩, ⟨.OPERATOR, op⟩] := by
  simp [infixToPostfix, convLoop, convStep, popOperators, drain]

theorem unsignedLiteral_head {s : String} (h : UnsignedLiteral s) :
    ∀ d, s.toList.head? = some d → d ≠ '*' := by
  intro d hd
  have hmem : d ∈ s.toList := List.mem_of_mem_head? hd
  exact (numChar_facts ((unsignedLiteral_numChars h).2 d hmem)).2.2

/-- C2. Round trip for a single binary operation: for unsigned numeric literals
`a` and `b` and each of the seven operators `op`, the pipeline on `a ++ op ++ b`
is the evaluation of the one-node tree `op(a, b)`; so where the two literals
have the values `x` and `y` it is exactly `calculate x y op`, with `a` on the
left and `b` on the right: the same number, and an error exactly when
`calculate` gives one. -/
theorem calculateExpression_binary {β : Type} (A : Arith β) (a b op : String)
    (ha : UnsignedLiteral a) (hb : UnsignedLiteral b)
    (hop : op ∈ ["+", "-", "*", "/", "%", "^", "**"]) :
    calculateExpression A (a ++ op ++ b) = evalTree A (.bin op (.num a) (.num b)) ∧
      ∀ x y, A.stod a = some x → A.stod b = some y →
        calculateExpression A (a ++ op ++ b) = calculate A x y op := by
  have htok := tokenize_binary a b op (unsignedLiteral_numChars ha)
    (unsignedLiteral_numChars hb) (unsignedLiteral_head hb) hop
  have hcalc : calculateExpression A (a ++ op ++ b) =
      evalTree A (.bin op (.num a) (.num b)) := by
    rw [calculateExpression, htok]
    simp only [infixToPostfix_binary]
    exact evaluatePostfix_postorder A (.bin op (.num a) (.num b))
  refine ⟨hcalc, ?_⟩
  intro x y hx hy
  rw [hcalc]
  simp [evalTree, hx, hy]

/-- Witness for C2: `1.5/2`. -/
theorem calculateExpression_binary_witness :
    calculateExpression exactArith ("1.5" ++ "/" ++ "2") =
        evalTree exactArith (.bin "/" (.num "1.5") (.num "2")) ∧
      ∀ x y, exactArith.stod "1.5" = some x → exactArith.stod "2" = some y →
        calculateExpression exactArith ("1.5" ++ "/" ++ "2") = calculate exactArith x y "/" :=
  calculateExpression_binary exactArith "1.5" "2" "/"
    (Or.inr ⟨"1", "5", ⟨by decide, by decide⟩, ⟨by decide, by decide⟩, by decide⟩)
    (Or.inl ⟨by decide, by decide⟩) (by decide)

/-! ## Precedence and associativity on three operands -/

/-- The facade on an input whose tokens and postfix form are known. -/
theorem calculateExpression_of_tree {β : Type} (A : Arith β) (expr : String)
    (tokens : List Token) (e : Expr) (htok : tokenize expr = .ok tokens)
    (hconv : infixToPostfix tokens = .ok (postorder e)) :
    calculateExpression A expr = evalTree A e := by
  rw [calculateExpression, htok]
  simp only [hconv]
  exact evaluatePostfix_postorder A e

/-- C3. Exponentiation is right-associative: for number texts `n1 n2 n3` and
operators `p`, `q` each `^` or `**`, `infixToPostfix [n1, p, n2, q, n3]` is
`[n1, n2, n3, q, p]`, which evaluates as `n1 p (n2 q n3)` in every arithmetic;
`2^3^2` is evaluated as `2 ^ (3 ^ 2)`, which is 512 and not 64 in exact
arithmetic. -/
theorem power_right_associative (n1 n2 n3 p q : String) (hp : p = "^" ∨ p = "**")
    (hq : q = "^" ∨ q = "**") :
    infixToPostfix [⟨.NUMBER, n1⟩, ⟨.OPERATOR, p⟩, ⟨.NUMBER, n2⟩, ⟨.OPERATOR, q⟩, ⟨.NUMBER, n3⟩] =
        .ok [⟨.NUMBER, n1⟩, ⟨.NUMBER, n2⟩, ⟨.NUMBER, n3⟩, ⟨.OPERATOR, q⟩, ⟨.OPERATOR, p⟩] ∧
      (∀ {β : Type} (A : Arith β),
        evaluatePostfix A
            [⟨.NUMBER, n1⟩, ⟨.NUMBER, n2⟩, ⟨.NUMBER, n3⟩, ⟨.OPERATOR, q⟩, ⟨.OPERATOR, p⟩] =
          evalTree A (.bin p (.num n1) (.bin q (.num n2) (.num n3)))) ∧
      (∀ {β : Type} (A : Arith β),
        calculateExpression A "2^3^2" =
          evalTree A (.bin "^" (.num "2") (.bin "^" (.num "3") (.num "2")))) ∧
      calculateExpression exactArith "2^3^2" = .ok (some 512) ∧
      calculateExpression exactArith "2^3^2" ≠ .ok (some 64) := by
  refine ⟨?_, fun A => evaluatePostfix_postorder A (.bin p (.num n1) (.bin q (.num n2) (.num n3))),
    fun A => calculateExpression_of_tree A _
      [⟨.NUMBER, "2"⟩, ⟨.OPERATOR, "^"⟩, ⟨.NUMBER, "3"⟩, ⟨.OPERATOR, "^"⟩, ⟨.NUMBER, "2"⟩]
      _ (by decide) (by decide), by decide!,
    by decide!⟩
  rcases hp with rfl | rfl <;> rcases hq with rfl | rfl <;>
    simp [infixToPostfix, convLoop, convStep, popOperators, shouldPop, getPriority,
      isLeftAssociative, drain]

/-- Witness for C3: `n1 ^ n2 ** n3`. -/
theorem power_right_associative_witness :
    infixToPostfix [⟨.NUMBER, "2"⟩, ⟨.OPERATOR, "^"⟩, ⟨.NUMBER, "3"⟩, ⟨.OPERATOR, "**"⟩,
          ⟨.NUMBER, "2"⟩] =
        .ok [⟨.NUMBER, "2"⟩, ⟨.NUMBER, "3"⟩, ⟨.NUMBER, "2"⟩, ⟨.OPERATOR, "**"⟩,
          ⟨.OPERATOR, "^"⟩] ∧
      (∀ {β : Type} (A : Arith β),
        evaluatePostfix A
            [⟨.NUMBER, "2"⟩, ⟨.NUMBER, "3"⟩, ⟨.NUMBER, "2"⟩, ⟨.OPERATOR, "**"⟩,
              ⟨.OPERATOR, "^"⟩] =
          evalTree A (.bin "^" (.num "2") (.bin "**" (.num "3") (.num "2")))) ∧
      (∀ {β : Type} (A : Arith β),
        calculateExpression A "2^3^2" =
          evalTree A (.bin "^" (.num "2") (.bin "^" (.num "3") (.num "2")))) ∧
      calculateExpression exactArith "2^3^2" = .ok (some 512) ∧
      calculateExpression exactArith "2^3^2" ≠ .ok (some 64) :=
  power_right_associative "2" "3" "2" "^" "**" (Or.inl rfl) (Or.inr rfl)

/-- C4. Operators of one left-associative level group left to right: for number
texts `n1 n2 n3` and operators `o1`, `o2` both among `+ -` or both among
`* / %`, `infixToPostfix [n1, o1, n2, o2, n3]` is `[n1, n2, o1, n3, o2]`, which
evaluates as `(n1 o1 n2) o2 n3` in every arithmetic; `10-2-3` is evaluated as
`(10 - 2) - 3`, which is 5 in exact arithmetic. -/
theorem same_level_left_associative (n1 n2 n3 o1 o2 : String)
    (h : (o1 ∈ ["+", "-"] ∧ o2 ∈ ["+", "-"]) ∨ (o1 ∈ ["*", "/", "%"] ∧ o2 ∈ ["*", "/", "%"])) :
    infixToPostfix [⟨.NUMBER, n1⟩, ⟨.OPERATOR, o1⟩, ⟨.NUMBER, n2⟩, ⟨.OPERATOR, o2⟩, ⟨.NUMBER, n3⟩] =
        .ok [⟨.NUMBER, n1⟩, ⟨.NUMBER, n2⟩, ⟨.OPERATOR, o1⟩, ⟨.NUMBER, n3⟩, ⟨.OPERATOR, o2⟩] ∧
      (∀ {β : Type} (A : Arith β),
        evaluatePostfix A
            [⟨.NUMBER, n1⟩, ⟨.NUMBER, n2⟩, ⟨.OPERATOR, o1⟩, ⟨.NUMBER, n3⟩, ⟨.OPERATOR, o2⟩] =
          evalTree A (.bin o2 (.bin o1 (.num n1) (.num n2)) (.num n3))) ∧
      (∀ {β : Type} (A : Arith β),
        calculateExpression A "10-2-3" =
          evalTree A (.bin "-" (.bin "-" (.num "10") (.num "2")) (.num "3"))) ∧
      calculateExpression exactArith "10-2-3" = .ok (some 5) := by
  refine ⟨?_, fun A => evaluatePostfix_postorder A (.bin o2 (.bin o1 (.num n1) (.num n2)) (.num n3)),
    fun A => calculateExpression_of_tree A _
      [⟨.NUMBER, "10"⟩, ⟨.OPERATOR, "-"⟩, ⟨.NUMBER, "2"⟩, ⟨.OPERATOR, "-"⟩, ⟨.NUMBER, "3"⟩]
      _ (by decide) (by decide), by decide!⟩
  simp only [List.mem_cons, List.mem_singleton, List.not_mem_nil, or_false] at h
  rcases h with ⟨h1, h2⟩ | ⟨h1, h2⟩
  · rcases h1 with rfl | rfl <;> rcases h2 with rfl | rfl <;>
      simp [infixToPostfix, convLoop, convStep, popOperators, shouldPop, getPriority,
        isLeftAssociative, drain]
  · rcases h1 with rfl | rfl | rfl <;> rcases h2 with rfl | rfl | rfl <;>
      simp [infixToPostfix, convLoop, convStep, popOperators, shouldPop, getPriority,
        isLeftAssociative, drain]

/-- Witness for C4: `n1 / n2 % n3`. -/
theorem same_level_left_associative_witness :
    infixToPostfix [⟨.NUMBER, "7"⟩, ⟨.OPERATOR, "/"⟩, ⟨.NUMBER, "2"⟩, ⟨.OPERATOR, "%"⟩,
          ⟨.NUMBER, "3"⟩] =
        .ok [⟨.NUMBER, "7"⟩, ⟨.NUMBER, "2"⟩, ⟨.OPERATOR, "/"⟩, ⟨.NUMBER, "3"⟩,
          ⟨.OPERATOR, "%"⟩] ∧
      (∀ {β : Type} (A : Arith β),
        evaluatePostfix A
            [⟨.NUMBER, "7"⟩, ⟨.NUMBER, "2"⟩, ⟨.OPERATOR, "/"⟩, ⟨.NUMBER, "3"⟩,
              ⟨.OPERATOR, "%"⟩] =
          evalTree A (.bin "%" (.bin "/" (.num "7") (.num "2")) (.num "3"))) ∧
      (∀ {β : Type} (A : Arith β),
        calculateExpression A "10-2-3" =
          evalTree A (.bin "-" (.bin "-" (.num "10") (.num "2")) (.num "3"))) ∧
      calculateExpression exactArith "10-2-3" = .ok (some 5) :=
  same_level_left_associative "7" "2" "3" "/" "%" (Or.inr ⟨by decide, by decide⟩)

/-- C5. A higher-priority operator binds tighter than a lower-priority one on
its left: for number texts `n1 n2 n3` and operator texts `o1`, `o2` with
`getPriority o1 < getPriority o2`, `infixToPostfix [n1, o1, n2, o2, n3]` is
`[n1, n2, n3, o2, o1]`, which evaluates as `n1 o1 (n2 o2 n3)` in every
arithmetic; the priorities are 1 for `+ -`, 2 for `* / %`, 3 for `^ **`; and
`2+3*4` is evaluated as `2 + (3 * 4)`, which is 14 in exact arithmetic. -/
theorem higher_priority_binds_tighter (n1 n2 n3 o1 o2 : String)
    (h : getPriority o1 < getPriority o2) :
    infixToPostfix [⟨.NUMBER, n1⟩, ⟨.OPERATOR, o1⟩, ⟨.NUMBER, n2⟩, ⟨.OPERATOR, o2⟩, ⟨.NUMBER, n3⟩] =
        .ok [⟨.NUMBER, n1⟩, ⟨.NUMBER, n2⟩, ⟨.NUMBER, n3⟩, ⟨.OPERATOR, o2⟩, ⟨.OPERATOR, o1⟩] ∧
      (∀ {β : Type} (A : Arith β),
        evaluatePostfix A
            [⟨.NUMBER, n1⟩, ⟨.NUMBER, n2⟩, ⟨.NUMBER, n3⟩, ⟨.OPERATOR, o2⟩, ⟨.OPERATOR, o1⟩] =
          evalTree A (.bin o1 (.num n1) (.bin o2 (.num n2) (.num n3)))) ∧
      (getPriority "+" = 1 ∧ getPriority "-" = 1 ∧ getPriority "*" = 2 ∧ getPriority "/" = 2 ∧
        getPriority "%" = 2 ∧ getPriority "^" = 3 ∧ getPriority "**" = 3) ∧
      (∀ {β : Type} (A : Arith β),
        calculateExpression A "2+3*4" =
          evalTree A (.bin "+" (.num "2") (.bin "*" (.num "3") (.num "4")))) ∧
      calculateExpression exactArith "2+3*4" = .ok (some 14) := by
  refine ⟨?_, fun A => evaluatePostfix_postorder A (.bin o1 (.num n1) (.bin o2 (.num n2) (.num n3))),
    by decide, fun A => calculateExpression_of_tree A _
      [⟨.NUMBER, "2"⟩, ⟨.OPERATOR, "+"⟩, ⟨.NUMBER, "3"⟩, ⟨.OPERATOR, "*"⟩, ⟨.NUMBER, "4"⟩]
      _ (by decide) (by decide), by decide!⟩
  have h1 : ¬ (getPriority o2 ≤ getPriority o1) := by omega
  have h2 : ¬ (getPriority o2 < getPriority o1) := by omega
  simp [infixToPostfix, convLoop, convStep, popOperators, shouldPop, drain, h1, h2]

/-- Witness for C5: `n1 - n2 ^ n3`. -/
theorem higher_priority_binds_tighter_witness :
    infixToPostfix [⟨.NUMBER, "9"⟩, ⟨.OPERATOR, "-"⟩, ⟨.NUMBER, "2"⟩, ⟨.OPERATOR, "^"⟩,
          ⟨.NUMBER, "3"⟩] =
        .ok [⟨.NUMBER, "9"⟩, ⟨.NUMBER, "2"⟩, ⟨.NUMBER, "3"⟩, ⟨.OPERATOR, "^"⟩,
          ⟨.OPERATOR, "-"⟩] ∧
      (∀ {β : Type} (A : Arith β),
        evaluatePostfix A
            [⟨.NUMBER, "9"⟩, ⟨.NUMBER, "2"⟩, ⟨.NUMBER, "3"⟩, ⟨.OPERATOR, "^"⟩,
              ⟨.OPERATOR, "-"⟩] =
          evalTree A (.bin "-" (.num "9") (.bin "^" (.num "2") (.num "3")))) ∧
      (getPriority "+" = 1 ∧ getPriority "-" = 1 ∧ getPriority "*" = 2 ∧ getPriority "/" = 2 ∧
        getPriority "%" = 2 ∧ getPriority "^" = 3 ∧ getPriority "**" = 3) ∧
      (∀ {β : Type} (A : Arith β),
        calculateExpression A "2+3*4" =
          evalTree A (.bin "+" (.num "2") (.bin "*" (.num "3") (.num "4")))) ∧
      calculateExpression exactArith "2+3*4" = .ok (some 14) :=
  higher_priority_binds_tighter "9" "2" "3" "-" "^" (by decide)

/-- C6. Parentheses override precedence: for number texts `n1 n2 n3` and any
operator texts `o1`, `o2`, `infixToPostfix [(, n1, o1, n2, ), o2, n3]` is
`[n1, n2, o1, n3, o2]`, which evaluates as `(n1 o1 n2) o2 n3` in every
arithmetic; `(2+3)*4` is evaluated as `(2 + 3) * 4`, which is 20 in exact
arithmetic. -/
theorem parentheses_override_precedence (n1 n2 n3 o1 o2 : String) :
    infixToPostfix [⟨.LPAREN, "("⟩, ⟨.NUMBER, n1⟩, ⟨.OPERATOR, o1⟩, ⟨.NUMBER, n2⟩,
          ⟨.RPAREN, ")"⟩, ⟨.OPERATOR, o2⟩, ⟨.NUMBER, n3⟩] =
        .ok [⟨.NUMBER, n1⟩, ⟨.NUMBER, n2⟩, ⟨.OPERATOR, o1⟩, ⟨.NUMBER, n3⟩, ⟨.OPERATOR, o2⟩] ∧
      (∀ {β : Type} (A : Arith β),
        evaluatePostfix A
            [⟨.NUMBER, n1⟩, ⟨.NUMBER, n2⟩, ⟨.OPERATOR, o1⟩, ⟨.NUMBER, n3⟩, ⟨.OPERATOR, o2⟩] =
          evalTree A (.bin o2 (.bin o1 (.num n1) (.num n2)) (.num n3))) ∧
      (∀ {β : Type} (A : Arith β),
        calculateExpression A "(2+3)*4" =
          evalTree A (.bin "*" (.bin "+" (.num "2") (.num "3")) (.num "4"))) ∧
      calculateExpression exactArith "(2+3)*4" = .ok (some 20) := by
  refine ⟨?_, fun A => evaluatePostfix_postorder A (.bin o2 (.bin o1 (.num n1) (.num n2)) (.num n3)),
    fun A => calculateExpression_of_tree A _
      [⟨.LPAREN, "("⟩, ⟨.NUMBER, "2"⟩, ⟨.OPERATOR, "+"⟩, ⟨.NUMBER, "3"⟩, ⟨.RPAREN, ")"⟩, ⟨.OPERATOR, "*"⟩, ⟨.NUMBER, "4"⟩]
      _ (by decide) (by decide), by decide!⟩
  simp [infixToPostfix, convLoop, convStep, popOperators, popToLParen, drain]


/-! ## Sign prefixes -/

theorem digitString_cons {s : String} (h : DigitString s) :
    ∃ d ds, s.toList = d :: ds ∧ isdigit d = true := by
  cases hs : s.toList with
  | nil => exact absurd hs h.1
  | cons d ds => exact ⟨d, ds, rfl, h.2 d (by rw [hs]; exact List.mem_cons_self _ _)⟩

/-- C7. Sign-prefix folding: for digit strings `a`, `b`, a sign `s` and an
operator character `o`, `tokenize (s a o b)` is `[Number (s a), Operator o,
Number b]` and `tokenize (a o s b)` is `[Number a, Operator o, Number (s b)]`:
a sign at position 0 or right after an operator character becomes part of the
following number and is not an Operator token. `-5+3` is evaluated as
`(-5) + 3` and `3*-2` as `3 * (-2)`, which are -2 and -6 in exact arithmetic. -/
theorem sign_prefix_folding (a b : String) (s o : Char) (ha : DigitString a)
    (hb : DigitString b) (hs : s = '+' ∨ s = '-') (ho : o ∈ ['+', '-', '*', '/', '%', '^']) :
    tokenize (String.singleton s ++ a ++ String.singleton o ++ b) =
        .ok [⟨.NUMBER, String.singleton s ++ a⟩, ⟨.OPERATOR, String.singleton o⟩,
          ⟨.NUMBER, b⟩] ∧
      tokenize (a ++ String.singleton o ++ String.singleton s ++ b) =
        .ok [⟨.NUMBER, a⟩, ⟨.OPERATOR, String.singleton o⟩,
          ⟨.NUMBER, String.singleton s ++ b⟩] ∧
      (∀ {β : Type} (A : Arith β),
        calculateExpression A "-5+3" = evalTree A (.bin "+" (.num "-5") (.num "3")) ∧
        calculateExpression A "3*-2" = evalTree A (.bin "*" (.num "3") (.num "-2"))) ∧
      calculateExpression exactArith "-5+3" = .ok (some (-2)) ∧
      calculateExpression exactArith "3*-2" = .ok (some (-6)) := by
  have hoc : isOperatorChar o = true := by
    simp only [List.mem_cons, List.mem_singleton, List.not_mem_nil, or_false] at ho
    rcases ho with rfl | rfl | rfl | rfl | rfl | rfl <;> decide
  have hna := digitString_numChars ha
  have hnb := digitString_numChars hb
  obtain ⟨d, ds, hbs, hd⟩ := digitString_cons hb
  have hds : d ≠ '*' := (isdigit_facts hd).2.2.2.2.1
  have hss : s ≠ '*' := by rcases hs with rfl | rfl <;> decide
  refine ⟨?_, ?_, fun A => ⟨?_, ?_⟩, by decide!, by decide!⟩
  · have hlist : (String.singleton s ++ a ++ String.singleton o ++ b).toList =
        s :: (a.toList ++ o :: b.toList) := by
      simp [String.toList, String.singleton]
    obtain ⟨p, hp, hrun⟩ := tokenizeLoop_number_run a.toList hna.1 hna.2 (o :: b.toList)
      (numberEnds_cons_operator hoc _) (some s) [] ("".push s)
    rw [tokenize, hlist, tokenizeLoop_sign none rfl s hs, hrun, hbs,
      tokenizeLoop_operator p o d hp hoc (fun _ => hds), ← hbs,
      tokenizeLoop_number_end b.toList hnb.1 hnb.2]
    simp only [List.nil_append, List.cons_append, Except.ok.injEq, List.cons.injEq,
      Token.mk.injEq, true_and, and_true]
    exact ⟨by apply String.ext; simp [String.singleton], by apply String.ext; simp⟩
  · have hlist : (a ++ String.singleton o ++ String.singleton s ++ b).toList =
        a.toList ++ o :: s :: b.toList := by
      simp [String.toList, String.singleton]
    obtain ⟨p, hp, hrun⟩ := tokenizeLoop_number_run a.toList hna.1 hna.2 (o :: s :: b.toList)
      (numberEnds_cons_operator hoc _) none [] ""
    rw [tokenize, hlist, hrun, tokenizeLoop_operator p o s hp hoc (fun _ => hss),
      tokenizeLoop_sign (some o) (isOperatorChar_facts hoc).2.2.2 s hs,
      tokenizeLoop_number_end b.toList hnb.1 hnb.2]
    simp only [List.nil_append, List.cons_append, Except.ok.injEq, List.cons.injEq,
      Token.mk.injEq, true_and, and_true]
    exact ⟨by apply String.ext; simp, by apply String.ext; simp [String.singleton]⟩
  · exact calculateExpression_of_tree A _
      [⟨.NUMBER, "-5"⟩, ⟨.OPERATOR, "+"⟩, ⟨.NUMBER, "3"⟩] _ (by decide) (by decide)
  · exact calculateExpression_of_tree A _
      [⟨.NUMBER, "3"⟩, ⟨.OPERATOR, "*"⟩, ⟨.NUMBER, "-2"⟩] _ (by decide) (by decide)

/-- Witness for C7: the sign `-`, the digit strings `12` and `7`, the operator `/`. -/
theorem sign_prefix_folding_witness :
    tokenize (String.singleton '-' ++ "12" ++ String.singleton '/' ++ "7") =
        .ok [⟨.NUMBER, String.singleton '-' ++ "12"⟩, ⟨.OPERATOR, String.singleton '/'⟩,
          ⟨.NUMBER, "7"⟩] ∧
      tokenize ("12" ++ String.singleton '/' ++ String.singleton '-' ++ "7") =
        .ok [⟨.NUMBER, "12"⟩, ⟨.OPERATOR, String.singleton '/'⟩,
          ⟨.NUMBER, String.singleton '-' ++ "7"⟩] ∧
      (∀ {β : Type} (A : Arith β),
        calculateExpression A "-5+3" = evalTree A (.bin "+" (.num "-5") (.num "3")) ∧
        calculateExpression A "3*-2" = evalTree A (.bin "*" (.num "3") (.num "-2"))) ∧
      calculateExpression exactArith "-5+3" = .ok (some (-2)) ∧
      calculateExpression exactArith "3*-2" = .ok (some (-6)) :=
  sign_prefix_folding "12" "7" '-' '/' ⟨by decide, by decide⟩ ⟨by decide, by decide⟩
    (Or.inr rfl) (by decide)

/-- C8 (the code at the failing input). On `-(2+3)` the sign put into the number
buffer at position 0 is still there when the digit `2` arrives after the
parenthesis: `tokenize` gives `( -2 + 3 )`, a Number token carrying the leading
sign, and `calculateExpression` returns `(-2) + 3`, which is 1 in exact
arithmetic, where the claim has the input rejected. -/
theorem sign_before_paren_leaks :
    tokenize "-(2+3)" =
        .ok [⟨.LPAREN, "("⟩, ⟨.NUMBER, "-2"⟩, ⟨.OPERATOR, "+"⟩, ⟨.NUMBER, "3"⟩,
          ⟨.RPAREN, ")"⟩] ∧
      (∀ {β : Type} (A : Arith β),
        calculateExpression A "-(2+3)" = evalTree A (.bin "+" (.num "-2") (.num "3"))) ∧
      calculateExpression exactArith "-(2+3)" = .ok (some 1) :=
  ⟨by decide,
    fun A => calculateExpression_of_tree A _
      [⟨.LPAREN, "("⟩, ⟨.NUMBER, "-2"⟩, ⟨.OPERATOR, "+"⟩, ⟨.NUMBER, "3"⟩, ⟨.RPAREN, ")"⟩]
      _ (by decide) (by decide),
    by decide!⟩

/-! ## Lexer failures -/

theorem accepted_false_facts {c : Char} (h : accepted c = false) :
    isspace c = false ∧ isdigit c = false ∧ c ≠ '.' ∧ isOperatorChar c = false ∧
      c ≠ '(' ∧ c ≠ ')' := by
  simp only [accepted, decide_eq_false_iff_not, not_or, Bool.not_eq_true] at h
  exact ⟨h.2.2.1, h.1, h.2.1, h.2.2.2.1, h.2.2.2.2.1, h.2.2.2.2.2⟩

/-- An unaccepted character at the head of the input is reported. -/
theorem tokenizeLoop_unaccepted (prev : Option Char) (c : Char) (hc : accepted c = false)
    (post : List Char) (tokens : List Token) (buf : String) :
    tokenizeLoop prev (c :: post) tokens buf = .error (.invalidChar c) := by
  obtain ⟨h1, h2, h3, h4, h5, h6⟩ := accepted_false_facts hc
  rw [tokenizeLoop_cons]
  simp [h1, h2, h3, h4, h5, h6]

/-- An accepted character never raises an error by itself: the loop continues
on the rest of the input, or on the rest without its first character when the
two-character operator is read. -/
theorem tokenizeLoop_accepted (prev : Option Char) (c : Char) (hc : accepted c = true)
    (rest : List Char) (tokens : List Token) (buf : String) :
    (∃ tokens2 buf2, tokenizeLoop prev (c :: rest) tokens buf =
        tokenizeLoop (some c) rest tokens2 buf2) ∨
      (∃ rest2 tokens2, rest = '*' :: rest2 ∧ tokenizeLoop prev (c :: rest) tokens buf =
        tokenizeLoop (some '*') rest2 tokens2 buf) := by
  rw [tokenizeLoop_cons]
  by_cases h1 : isspace c = true
  · exact Or.inl ⟨_, _, by rw [if_pos h1]⟩
  rw [if_neg h1]
  by_cases h2 : isdigit c = true ∨ c = '.'
  · rw [if_pos h2]
    by_cases h3 : numberEnds rest = true
    · exact Or.inl ⟨_, _, by rw [if_pos h3]⟩
    · exact Or.inl ⟨_, _, by rw [if_neg h3]⟩
  rw [if_neg h2]
  by_cases h4 : isOperatorChar c = true
  · rw [if_pos h4]
    by_cases h5 : (c = '+' ∨ c = '-') ∧ signContext prev = true
    · exact Or.inl ⟨_, _, by rw [if_pos h5]⟩
    rw [if_neg h5]
    by_cases h6 : c = '*' ∧ rest.head? = some '*'
    · rw [if_pos h6]
      cases rest with
      | nil => simp at h6
      | cons d rest2 =>
        have hd : d = '*' := by simpa using h6.2
        subst hd
        exact Or.inr ⟨rest2, _, rfl, rfl⟩
    · exact Or.inl ⟨_, _, by rw [if_neg h6]⟩
  rw [if_neg h4]
  by_cases h7 : c = '('
  · exact Or.inl ⟨_, _, by rw [if_pos h7]⟩
  rw [if_neg h7]
  by_cases h8 : c = ')'
  · exact Or.inl ⟨_, _, by rw [if_pos h8]⟩
  · exfalso
    simp only [accepted, decide_eq_true_eq] at hc
    rcases hc with hc | hc | hc | hc | hc | hc
    · exact h2 (Or.inl hc)
    · exact h2 (Or.inr hc)
    · exact h1 hc
    · exact h4 hc
    · exact h7 hc
    · exact h8 hc

/-- On an input of accepted characters the loop returns a token sequence. -/
theorem tokenizeLoop_ok_of_accepted (n : Nat) :
    ∀ (cs : List Char), cs.length ≤ n → (∀ c ∈ cs, accepted c = true) →
      ∀ (prev : Option Char) (tokens : List Token) (buf : String),
        ∃ result, tokenizeLoop prev cs tokens buf = .ok result := by
  induction n with
  | zero =>
    intro cs hlen _ prev tokens buf
    have : cs = [] := List.eq_nil_of_length_eq_zero (Nat.le_zero.1 hlen)
    subst this
    exact ⟨tokens, by rw [tokenizeLoop]⟩
  | succ n ih =>
    intro cs hlen hall prev tokens buf
    cases cs with
    | nil => exact ⟨tokens, by rw [tokenizeLoop]⟩
    | cons c rest =>
      have hrest : ∀ x ∈ rest, accepted x = true := fun x hx => hall x (List.mem_cons_of_mem _ hx)
      have hlen2 : rest.length ≤ n := by simpa using hlen
      rcases tokenizeLoop_accepted prev c (hall c (List.mem_cons_self _ _)) rest tokens buf with
        ⟨t2, b2, h⟩ | ⟨rest2, t2, hr, h⟩
      · rw [h]; exact ih rest hlen2 hrest _ _ _
      · rw [h]; subst hr
        exact ih rest2 (by simp at hlen2; omega)
          (fun x hx => hrest x (List.mem_cons_of_mem _ hx)) _ _ _

/-- The leftmost unaccepted character is the one reported. -/
theorem tokenizeLoop_error_of_unaccepted (n : Nat) :
    ∀ (pre : List Char), pre.length ≤ n → (∀ d ∈ pre, accepted d = true) →
      ∀ (c : Char), accepted c = false → ∀ (post : List Char) (prev : Option Char)
        (tokens : List Token) (buf : String),
        tokenizeLoop prev (pre ++ c :: post) tokens buf = .error (.invalidChar c) := by
  induction n with
  | zero =>
    intro pre hlen _ c hc post prev tokens buf
    have : pre = [] := List.eq_nil_of_length_eq_zero (Nat.le_zero.1 hlen)
    subst this
    exact tokenizeLoop_unaccepted prev c hc post tokens buf
  | succ n ih =>
    intro pre hlen hall c hc post prev tokens buf
    cases pre with
    | nil => exact tokenizeLoop_unaccepted prev c hc post tokens buf
    | cons x rest =>
      have hrest : ∀ y ∈ rest, accepted y = true := fun y hy => hall y (List.mem_cons_of_mem _ hy)
      have hlen2 : rest.length ≤ n := by simpa using hlen
      rw [List.cons_append]
      rcases tokenizeLoop_accepted prev x (hall x (List.mem_cons_self _ _)) (rest ++ c :: post)
        tokens buf with ⟨t2, b2, h⟩ | ⟨rest2, t2, hr, h⟩
      · rw [h]; exact ih rest hlen2 hrest c hc post _ _ _
      · rw [h]
        cases rest with
        | nil =>
          exfalso
          have hcs : c = '*' := by simpa using congrArg List.head? hr
          rw [hcs] at hc
          exact absurd hc (by decide)
        | cons y rest3 =>
          have hr2 : rest2 = rest3 ++ c :: post := by
            simpa using (congrArg List.tail hr).symm
          rw [hr2]
          exact ih rest3 (by simp at hlen2; omega)
            (fun z hz => hrest z (List.mem_cons_of_mem _ hz)) c hc post _ _ _

/-- A list with an element failing `p` splits at the leftmost such element. -/
theorem exists_leftmost {cs : List Char} {p : Char → Bool} (h : ∃ c ∈ cs, p c = false) :
    ∃ pre c post, cs = pre ++ c :: post ∧ (∀ d ∈ pre, p d = true) ∧ p c = false := by
  induction cs with
  | nil => obtain ⟨c, hc, _⟩ := h; cases hc
  | cons x xs ih =>
    by_cases hx : p x = true
    · obtain ⟨c, hc, hpc⟩ := h
      have hc2 : c ∈ xs := by
        rcases List.mem_cons.1 hc with rfl | hc
        · rw [hx] at hpc; cases hpc
        · exact hc
      obtain ⟨pre, c2, post, hsplit, hpre, hc3⟩ := ih ⟨c, hc2, hpc⟩
      refine ⟨x :: pre, c2, post, by rw [hsplit]; rfl, ?_, hc3⟩
      intro d hd
      rcases List.mem_cons.1 hd with rfl | hd
      · exact hx
      · exact hpre d hd
    · exact ⟨[], x, xs, rfl, by simp, by simpa using hx⟩

/-- C9. `tokenize` fails if and only if the input has a character outside the
alphabet (digits, `.`, whitespace, `+ - * / % ^`, `(`, `)`); when it fails the
error is `invalidChar c` for the leftmost such character `c` (an error result
carries no tokens); it succeeds if and only if every character is accepted; and
`tokenize "2+a"` fails with the InvalidCharacter error naming `a`. -/
theorem tokenize_fails_iff (expr : String) :
    ((∃ e, tokenize expr = .error e) ↔ ∃ c ∈ expr.toList, accepted c = false) ∧
      (∀ e, tokenize expr = .error e →
        ∃ pre c post, expr.toList = pre ++ c :: post ∧ (∀ d ∈ pre, accepted d = true) ∧
          accepted c = false ∧ e = .invalidChar c) ∧
      ((∃ tokens, tokenize expr = .ok tokens) ↔ ∀ c ∈ expr.toList, accepted c = true) ∧
      tokenize "2+a" = .error (.invalidChar 'a') ∧
      (Err.invalidChar 'a').kind = .InvalidCharacter := by
  have hbad : (∃ c ∈ expr.toList, accepted c = false) →
      ∃ pre c post, expr.toList = pre ++ c :: post ∧ (∀ d ∈ pre, accepted d = true) ∧
        accepted c = false ∧ tokenize expr = .error (.invalidChar c) := by
    intro h
    obtain ⟨pre, c, post, hsplit, hpre, hc⟩ := exists_leftmost h
    refine ⟨pre, c, post, hsplit, hpre, hc, ?_⟩
    rw [tokenize, hsplit]
    exact tokenizeLoop_error_of_unaccepted pre.length pre le_rfl hpre c hc post _ _ _
  have hgood : (∀ c ∈ expr.toList, accepted c = true) → ∃ tokens, tokenize expr = .ok tokens :=
    fun h => tokenizeLoop_ok_of_accepted expr.toList.length expr.toList le_rfl h _ _ _
  have hcases : (∃ c ∈ expr.toList, accepted c = false) ∨ ∀ c ∈ expr.toList, accepted c = true := by
    by_cases h : ∀ c ∈ expr.toList, accepted c = true
    · exact Or.inr h
    · left
      push_neg at h
      obtain ⟨c, hc, hne⟩ := h
      exact ⟨c, hc, by simpa using hne⟩
  refine ⟨⟨?_, ?_⟩, ?_, ⟨?_, hgood⟩, by decide, rfl⟩
  · rintro ⟨e, he⟩
    rcases hcases with h | h
    · exact h
    · obtain ⟨tokens, ht⟩ := hgood h
      rw [ht] at he; cases he
  · intro h
    obtain ⟨_, c, _, _, _, _, hc⟩ := hbad h
    exact ⟨_, hc⟩
  · intro e he
    rcases hcases with h | h
    · obtain ⟨pre, c, post, hsplit, hpre, hc, herr⟩ := hbad h
      rw [herr] at he
      exact ⟨pre, c, post, hsplit, hpre, hc, by cases he; rfl⟩
    · obtain ⟨tokens, ht⟩ := hgood h
      rw [ht] at he; cases he
  · rintro ⟨tokens, ht⟩
    rcases hcases with h | h
    · obtain ⟨_, c, _, _, _, _, herr⟩ := hbad h
      rw [herr] at ht; cases ht
    · exact h

/-! ## Converter failures -/

theorem countLParen_nonneg (st : List Token) : 0 ≤ countLParen st := by
  induction st with
  | nil => simp [countLParen]
  | cons t st ih => simp only [countLParen]; split <;> omega

theorem popOperators_countLParen (op : String) (out st : List Token) :
    countLParen (popOperators op out st).2 = countLParen st := by
  induction st generalizing out with
  | nil => simp [popOperators]
  | cons t st ih =>
    rw [popOperators]
    by_cases h1 : t.type = .OPERATOR
    · by_cases h2 : shouldPop op t.value = true
      · simp only [h1, h2, if_true, ih]
        simp [countLParen, h1]
      · simp [h1, h2]
    · simp [h1]

/-- The pop loop of a right parenthesis stops with a left parenthesis on top
whenever the stack holds one, and removes no left parenthesis. -/
theorem popToLParen_spec (out st : List Token) (h : 0 < countLParen st) :
    ∃ out2 top st2, popToLParen out st = (out2, top :: st2) ∧ top.type = .LPAREN ∧
      countLParen st2 = countLParen st - 1 := by
  induction st generalizing out with
  | nil => simp [countLParen] at h
  | cons t st ih =>
    rw [popToLParen]
    by_cases h1 : t.type = .LPAREN
    · exact ⟨out, t, st, by simp [h1], h1, by simp [countLParen, h1]⟩
    · have h2 : 0 < countLParen st := by simpa [countLParen, h1] using h
      obtain ⟨out2, top, st2, hrun, htop, hcount⟩ := ih (out ++ [t]) h2
      exact ⟨out2, top, st2, by simp [h1, hrun], htop, by simp [countLParen, h1, hcount]⟩

theorem drain_ok_of_countLParen (out st : List Token) (h : countLParen st = 0) :
    ∃ result, drain out st = .ok result := by
  induction st generalizing out with
  | nil => exact ⟨out, by simp [drain]⟩
  | cons t st ih =>
    have hst := countLParen_nonneg st
    by_cases h1 : t.type = .LPAREN
    · simp [countLParen, h1] at h; omega
    · have h2 : countLParen st = 0 := by simpa [countLParen, h1] using h
      obtain ⟨result, hr⟩ := ih (out ++ [t]) h2
      exact ⟨result, by simp [drain, h1, hr]⟩

/-- One iteration under the counter invariant: it fails exactly at a right
parenthesis met with counter zero, and otherwise keeps the invariant and moves
the counter by the balance of the token. -/
theorem convStep_spec (s : ConvState) (hinv : CounterInv s) (t : Token) :
    (convStep s t = .error .extraRightParen ∧ s.parenCount + parenBalance [t] < 0) ∨
      ∃ s2, convStep s t = .ok s2 ∧ CounterInv s2 ∧
        s2.parenCount = s.parenCount + parenBalance [t] := by
  have hnn := countLParen_nonneg s.opStack
  unfold CounterInv at hinv
  cases htype : t.type with
  | NUMBER =>
    refine Or.inr ⟨⟨s.out ++ [t], s.opStack, s.parenCount⟩, by simp only [convStep, htype], ?_, ?_⟩
    · simpa [CounterInv] using hinv
    · simp [parenBalance, htype]
  | OPERATOR =>
    refine Or.inr ⟨⟨(popOperators t.value s.out s.opStack).1,
      t :: (popOperators t.value s.out s.opStack).2, s.parenCount⟩,
      by simp only [convStep, htype], ?_, ?_⟩
    · simp only [CounterInv, countLParen, htype]
      rw [popOperators_countLParen]
      simpa using hinv
    · simp [parenBalance, htype]
  | LPAREN =>
    refine Or.inr ⟨⟨s.out, t :: s.opStack, s.parenCount + 1⟩,
      by simp only [convStep, htype], ?_, ?_⟩
    · simp only [CounterInv, countLParen, htype]
      simp; omega
    · simp [parenBalance, htype]
  | RPAREN =>
    by_cases hneg : s.parenCount - 1 < 0
    · left
      refine ⟨by simp only [convStep, htype, if_pos hneg], ?_⟩
      simp [parenBalance, htype]; omega
    · right
      obtain ⟨out2, top, st2, hrun, -, hcount⟩ := popToLParen_spec s.out s.opStack (by omega)
      refine ⟨⟨out2, st2, s.parenCount - 1⟩, ?_, ?_, ?_⟩
      · simp only [convStep, htype, if_neg hneg, hrun]
      · simp only [CounterInv]; omega
      · simp [parenBalance, htype]; omega

theorem parenBalance_cons (t : Token) (ts : List Token) :
    parenBalance (t :: ts) = parenBalance [t] + parenBalance ts := by
  simp [parenBalance]

/-- The loop under the counter invariant: it fails exactly when some prefix
drives the counter below zero, always with the excess-right-parenthesis error;
when it succeeds the invariant holds at the end and the counter has moved by
the balance of the input. -/
theorem convLoop_spec (ts : List Token) :
    ∀ s, CounterInv s →
      (convLoop ts s = .error .extraRightParen ∧
        ∃ pre, pre <+: ts ∧ s.parenCount + parenBalance pre < 0) ∨
      (∃ s2, convLoop ts s = .ok s2 ∧ CounterInv s2 ∧
        s2.parenCount = s.parenCount + parenBalance ts ∧
        ∀ pre, pre <+: ts → 0 ≤ s.parenCount + parenBalance pre) := by
  induction ts with
  | nil =>
    intro s hinv
    refine Or.inr ⟨s, by simp [convLoop], hinv, by simp [parenBalance], ?_⟩
    intro pre hpre
    have : pre = [] := List.prefix_nil.1 hpre
    subst this
    have := countLParen_nonneg s.opStack
    unfold CounterInv at hinv
    simp [parenBalance]; omega
  | cons t ts ih =>
    intro s hinv
    have hs0 : 0 ≤ s.parenCount := by
      have := countLParen_nonneg s.opStack
      unfold CounterInv at hinv; omega
    rcases convStep_spec s hinv t with ⟨herr, hneg⟩ | ⟨s2, hok, hinv2, hcount⟩
    · exact Or.inl ⟨by simp [convLoop, herr], [t], by simp, hneg⟩
    · rcases ih s2 hinv2 with ⟨herr, pre, hpre, hneg⟩ | ⟨s3, hok3, hinv3, hcount3, hall⟩
      · refine Or.inl ⟨by simp [convLoop, hok, herr], t :: pre, ?_, ?_⟩
        · exact List.prefix_cons_inj t |>.2 hpre
        · rw [parenBalance_cons]; omega
      · refine Or.inr ⟨s3, by simp [convLoop, hok, hok3], hinv3, ?_, ?_⟩
        · rw [parenBalance_cons]; omega
        · intro pre hpre
          cases pre with
          | nil => simpa [parenBalance] using hs0
          | cons x pre2 =>
            obtain ⟨rfl, hpre2⟩ := List.cons_prefix_cons.1 hpre
            have := hall pre2 hpre2
            rw [parenBalance_cons]; omega

/-- The facade on an input whose tokens the converter rejects. -/
theorem calculateExpression_of_conv_error {β : Type} (A : Arith β) (expr : String)
    (tokens : List Token) (e : Err) (htok : tokenize expr = .ok tokens)
    (hconv : infixToPostfix tokens = .error e) :
    calculateExpression A expr = .error e := by
  rw [calculateExpression, htok]
  simp only [hconv]

/-- C10. `infixToPostfix` fails if and only if the parenthesis tokens are
unbalanced (some prefix has more right than left parentheses, or the whole input
has more left than right ones); with balanced parentheses it succeeds whatever
the numbers and operators are; every failure is of kind UnbalancedParenthesis;
and `calculateExpression` fails on `(2+3` with the missing-right-parenthesis
error and on `2+3)` with the excess-right-parenthesis error. -/
theorem infixToPostfix_fails_iff (tokens : List Token) :
    ((∃ e, infixToPostfix tokens = .error e) ↔ Unbalanced tokens) ∧
      ((∃ output, infixToPostfix tokens = .ok output) ↔ ¬ Unbalanced tokens) ∧
      (∀ e, infixToPostfix tokens = .error e → e.kind = .UnbalancedParenthesis) ∧
      (∀ {β : Type} (A : Arith β),
        calculateExpression A "(2+3" = .error .missingRightParen ∧
        calculateExpression A "2+3)" = .error .extraRightParen) ∧
      Err.missingRightParen.kind = .UnbalancedParenthesis ∧
      Err.extraRightParen.kind = .UnbalancedParenthesis := by
  have hinit : CounterInv ⟨[], [], 0⟩ := by simp [CounterInv, countLParen]
  have hmain : (Unbalanced tokens ∧ ∃ e, infixToPostfix tokens = .error e ∧
        e.kind = .UnbalancedParenthesis) ∨
      (¬ Unbalanced tokens ∧ ∃ output, infixToPostfix tokens = .ok output) := by
    rcases convLoop_spec tokens ⟨[], [], 0⟩ hinit with
      ⟨herr, pre, hpre, hneg⟩ | ⟨s2, hok, hinv2, hcount, hall⟩
    · left
      refine ⟨Or.inl ⟨pre, hpre, by simpa using hneg⟩, .extraRightParen, ?_, rfl⟩
      simp [infixToPostfix, herr]
    · simp only [zero_add] at hcount hall
      by_cases hzero : s2.parenCount = 0
      · right
        have hbal : parenBalance tokens = 0 := by omega
        refine ⟨?_, ?_⟩
        · rintro (⟨pre, hpre, hneg⟩ | hpos)
          · have := hall pre hpre; omega
          · omega
        · obtain ⟨result, hr⟩ := drain_ok_of_countLParen s2.out s2.opStack
            (by unfold CounterInv at hinv2; omega)
          exact ⟨result, by simp [infixToPostfix, hok, hzero, hr]⟩
      · left
        have hnn := countLParen_nonneg s2.opStack
        unfold CounterInv at hinv2
        refine ⟨Or.inr (by omega), .missingRightParen, ?_, rfl⟩
        simp [infixToPostfix, hok, hzero]
  refine ⟨⟨?_, ?_⟩, ⟨?_, ?_⟩, ?_, fun A => ⟨?_, ?_⟩, rfl, rfl⟩
  · rintro ⟨e, he⟩
    rcases hmain with ⟨hu, -⟩ | ⟨-, output, ho⟩
    · exact hu
    · rw [ho] at he; cases he
  · intro hu
    rcases hmain with ⟨-, e, he, -⟩ | ⟨hnu, -⟩
    · exact ⟨e, he⟩
    · exact absurd hu hnu
  · rintro ⟨output, ho⟩ hu
    rcases hmain with ⟨-, e, he, -⟩ | ⟨hnu, -⟩
    · rw [he] at ho; cases ho
    · exact hnu hu
  · intro hnu
    rcases hmain with ⟨hu, -⟩ | ⟨-, h⟩
    · exact absurd hu hnu
    · exact h
  · intro e he
    rcases hmain with ⟨-, e2, he2, hk⟩ | ⟨-, output, ho⟩
    · rw [he2] at he; cases he; exact hk
    · rw [ho] at he; cases he
  · exact calculateExpression_of_conv_error A _
      [⟨.LPAREN, "("⟩, ⟨.NUMBER, "2"⟩, ⟨.OPERATOR, "+"⟩, ⟨.NUMBER, "3"⟩] _
      (by decide) (by decide)
  · exact calculateExpression_of_conv_error A _
      [⟨.NUMBER, "2"⟩, ⟨.OPERATOR, "+"⟩, ⟨.NUMBER, "3"⟩, ⟨.RPAREN, ")"⟩] _
      (by decide) (by decide)


/-! ## Converter: what moves where -/

/-- The pop loop of an operator moves a run of operator tokens from the top of
the stack to the end of the output, and nothing else. -/
theorem popOperators_moves (op : String) (out st : List Token) :
    ∃ moved rest, popOperators op out st = (out ++ moved, rest) ∧ st = moved ++ rest ∧
      ∀ t ∈ moved, t.type = .OPERATOR := by
  induction st generalizing out with
  | nil => exact ⟨[], [], by simp [popOperators], rfl, by simp⟩
  | cons top st ih =>
    rw [popOperators]
    by_cases h1 : top.type = .OPERATOR
    · by_cases h2 : shouldPop op top.value = true
      · obtain ⟨moved, rest, hrun, hst, hall⟩ := ih (out ++ [top])
        refine ⟨top :: moved, rest, by simp [h1, h2, hrun], by simp [hst], ?_⟩
        intro t ht
        rcases List.mem_cons.1 ht with rfl | ht
        · exact h1
        · exact hall t ht
      · exact ⟨[], top :: st, by simp [h1, h2], rfl, by simp⟩
    · exact ⟨[], top :: st, by simp [h1], rfl, by simp⟩

/-- The pop loop of a right parenthesis moves a run of tokens that are not left
parentheses from the top of the stack to the end of the output, and stops at a
left parenthesis or at the bottom. -/
theorem popToLParen_moves (out st : List Token) :
    ∃ moved rest, popToLParen out st = (out ++ moved, rest) ∧ st = moved ++ rest ∧
      ∀ t ∈ moved, t.type ≠ .LPAREN := by
  induction st generalizing out with
  | nil => exact ⟨[], [], by simp [popToLParen], rfl, by simp⟩
  | cons top st ih =>
    rw [popToLParen]
    by_cases h1 : top.type = .LPAREN
    · exact ⟨[], top :: st, by simp [h1], rfl, by simp⟩
    · obtain ⟨moved, rest, hrun, hst, hall⟩ := ih (out ++ [top])
      refine ⟨top :: moved, rest, by simp [h1, hrun], by simp [hst], ?_⟩
      intro t ht
      rcases List.mem_cons.1 ht with rfl | ht
      · exact h1
      · exact hall t ht

/-- A final drain that succeeds appends the whole stack, which holds no left
parenthesis. -/
theorem drain_ok (out st result : List Token) (h : drain out st = .ok result) :
    result = out ++ st ∧ ∀ t ∈ st, t.type ≠ .LPAREN := by
  induction st generalizing out with
  | nil => simp [drain] at h; simp [h]
  | cons top st ih =>
    rw [drain] at h
    by_cases h1 : top.type = .LPAREN
    · simp [h1] at h
    · rw [if_neg h1] at h
      obtain ⟨hres, hall⟩ := ih (out ++ [top]) h
      refine ⟨by simp [hres], ?_⟩
      intro t ht
      rcases List.mem_cons.1 ht with rfl | ht
      · exact h1
      · exact hall t ht

theorem popToLParen_head (out st : List Token) (top : Token) (st2 : List Token)
    (out2 : List Token) (h : popToLParen out st = (out2, top :: st2)) :
    top.type = .LPAREN := by
  induction st generalizing out with
  | nil => simp [popToLParen] at h
  | cons x st ih =>
    rw [popToLParen] at h
    by_cases h1 : x.type = .LPAREN
    · simp only [h1, ne_eq, not_true_eq_false, if_false, Prod.mk.injEq, List.cons.injEq] at h
      rw [← h.2.1]; exact h1
    · rw [if_pos h1] at h
      exact ih (out ++ [x]) h

theorem filter_operator_of_all {l : List Token} (h : ∀ t ∈ l, t.type = .OPERATOR) :
    l.filter (fun t => t.type = .OPERATOR) = l ∧
      l.filter (fun t => t.type = .NUMBER) = [] := by
  refine ⟨List.filter_eq_self.2 (fun t ht => by simp [h t ht]), ?_⟩
  exact List.filter_eq_nil_iff.2 (fun t ht => by simp [h t ht])

/-- One iteration keeps the reordering invariant. -/
theorem convStep_reordering (seen : List Token) (s s2 : ConvState) (t : Token)
    (hinv : Reordering seen s) (hstep : convStep s t = .ok s2) :
    Reordering (seen ++ [t]) s2 := by
  obtain ⟨hout, hstack, hperm, hnum⟩ := hinv
  cases htype : t.type with
  | NUMBER =>
    simp only [convStep, htype, Except.ok.injEq] at hstep
    subst hstep
    refine ⟨?_, hstack, ?_, ?_⟩
    · intro x hx
      rcases List.mem_append.1 hx with hx | hx
      · exact hout x hx
      · simp at hx; subst hx; exact Or.inl htype
    · simp only [List.filter_append, List.filter_cons, List.filter_nil, htype, true_or,
        decide_True, if_true]
      have h1 : List.Perm (s.out ++ [t] ++ s.opStack.filter (fun t => t.type = .OPERATOR))
          (s.out ++ s.opStack.filter (fun t => t.type = .OPERATOR) ++ [t]) := by
        rw [List.append_assoc, List.append_assoc]
        exact List.Perm.append_left _ List.perm_append_comm
      exact h1.trans (List.Perm.append_right _ hperm)
    · simp [List.filter_append, htype, hnum]
  | LPAREN =>
    simp only [convStep, htype, Except.ok.injEq] at hstep
    subst hstep
    refine ⟨hout, ?_, ?_, ?_⟩
    · intro x hx
      rcases List.mem_cons.1 hx with rfl | hx
      · exact Or.inr htype
      · exact hstack x hx
    · simpa [List.filter_append, List.filter_cons, htype] using hperm
    · simpa [List.filter_append, htype] using hnum
  | OPERATOR =>
    obtain ⟨moved, rest, hrun, hst, hmoved⟩ := popOperators_moves t.value s.out s.opStack
    simp only [convStep, htype, hrun, Except.ok.injEq] at hstep
    subst hstep
    have hf := filter_operator_of_all hmoved
    refine ⟨?_, ?_, ?_, ?_⟩
    · intro x hx
      rcases List.mem_append.1 hx with hx | hx
      · exact hout x hx
      · exact Or.inr (hmoved x hx)
    · intro x hx
      rcases List.mem_cons.1 hx with rfl | hx
      · exact Or.inl htype
      · exact hstack x (by rw [hst]; exact List.mem_append_right _ hx)
    · rw [hst, List.filter_append, hf.1] at hperm
      simp only [List.filter_append, List.filter_cons, List.filter_nil, htype, or_true,
        decide_True, if_true]
      have h1 : List.Perm (s.out ++ moved ++ t :: rest.filter (fun t => t.type = .OPERATOR))
          (t :: (s.out ++ moved ++ rest.filter (fun t => t.type = .OPERATOR))) :=
        List.perm_middle
      have h2 : List.Perm (t :: (s.out ++ moved ++ rest.filter (fun t => t.type = .OPERATOR)))
          (t :: seen.filter (fun t => t.type = .NUMBER ∨ t.type = .OPERATOR)) := by
        rw [List.append_assoc]
        exact List.Perm.cons t hperm
      exact (h1.trans h2).trans (List.perm_append_singleton _ _).symm
    · simp [List.filter_append, htype, hnum, hf.2]
  | RPAREN =>
    obtain ⟨moved, rest, hrun, hst, hmoved⟩ := popToLParen_moves s.out s.opStack
    have hmoved2 : ∀ x ∈ moved, x.type = .OPERATOR := by
      intro x hx
      rcases hstack x (by rw [hst]; exact List.mem_append_left _ hx) with h | h
      · exact h
      · exact absurd h (hmoved x hx)
    have hf := filter_operator_of_all hmoved2
    simp only [convStep, htype] at hstep
    by_cases hneg : s.parenCount - 1 < 0
    · rw [if_pos hneg] at hstep; cases hstep
    · rw [if_neg hneg] at hstep
      cases rest with
      | nil => rw [hrun] at hstep; cases hstep
      | cons top st2 =>
        have htop := popToLParen_head s.out s.opStack top st2 _ hrun
        rw [hrun] at hstep
        simp only [Except.ok.injEq] at hstep
        subst hstep
        refine ⟨?_, ?_, ?_, ?_⟩
        · intro x hx
          rcases List.mem_append.1 hx with hx | hx
          · exact hout x hx
          · exact Or.inr (hmoved2 x hx)
        · intro x hx
          exact hstack x (by rw [hst]; exact List.mem_append_right _ (List.mem_cons_of_mem _ hx))
        · rw [hst, List.filter_append, hf.1] at hperm
          simpa [List.filter_append, List.filter_cons, htype, htop] using hperm
        · simp [List.filter_append, htype, hnum, hf.2]

/-- The loop keeps the reordering invariant. -/
theorem convLoop_reordering (ts : List Token) :
    ∀ (seen : List Token) (s s2 : ConvState), Reordering seen s → convLoop ts s = .ok s2 →
      Reordering (seen ++ ts) s2 := by
  induction ts with
  | nil =>
    intro seen s s2 hinv h
    simp only [convLoop, Except.ok.injEq] at h
    subst h; simpa using hinv
  | cons t ts ih =>
    intro seen s s2 hinv h
    rw [convLoop] at h
    cases hstep : convStep s t with
    | error e => rw [hstep] at h; cases h
    | ok s1 =>
      rw [hstep] at h
      have := ih (seen ++ [t]) s1 s2 (convStep_reordering seen s s1 t hinv hstep) h
      simpa using this

/-- A successful conversion returns a rearrangement of the numbers and operators
of its input, made of numbers and operators only, with the numbers in their
input order. -/
theorem infixToPostfix_reordering (tokens output : List Token)
    (h : infixToPostfix tokens = .ok output) :
    (∀ t ∈ output, t.type = .NUMBER ∨ t.type = .OPERATOR) ∧
      List.Perm output (tokens.filter (fun t => t.type = .NUMBER ∨ t.type = .OPERATOR)) ∧
      output.filter (fun t => t.type = .NUMBER) = tokens.filter (fun t => t.type = .NUMBER) := by
  rw [infixToPostfix] at h
  cases hloop : convLoop tokens ⟨[], [], 0⟩ with
  | error e => rw [hloop] at h; cases h
  | ok s =>
    rw [hloop] at h
    simp only at h
    by_cases hzero : s.parenCount ≠ 0
    · rw [if_pos hzero] at h; cases h
    · rw [if_neg hzero] at h
      obtain ⟨hres, hnolp⟩ := drain_ok _ _ _ h
      have hinit : Reordering [] ⟨[], [], 0⟩ := by simp [Reordering]
      obtain ⟨hout, hstack, hperm, hnum⟩ := convLoop_reordering tokens [] _ s hinit hloop
      have hops : ∀ x ∈ s.opStack, x.type = .OPERATOR := by
        intro x hx
        rcases hstack x hx with h1 | h1
        · exact h1
        · exact absurd h1 (hnolp x hx)
      have hf := filter_operator_of_all hops
      rw [hf.1] at hperm
      simp only [List.nil_append] at hperm hnum
      subst hres
      refine ⟨?_, hperm, by simp [List.filter_append, hnum, hf.2]⟩
      intro x hx
      rcases List.mem_append.1 hx with hx | hx
      · exact hout x hx
      · exact Or.inr (hops x hx)

/-! ## Division by zero -/

/-- C11. Division and modulo by zero are rejected: for every left operand `a`
and every right operand `b` that compares equal to zero, `calculate a b "/"` and
`calculate a b "%"` fail with the two DivisionByZero errors; for every `b` that
does not, they succeed with the quotient and the remainder; the other five
operators succeed on every right operand. `5/0` and `5%0` fail with
DivisionByZero in every arithmetic that reads `0` as a zero, and so in exact
arithmetic. -/
theorem division_by_zero_rejected {β : Type} (A : Arith β) (a b : β) :
    (A.isZero b = true →
      calculate A a b "/" = .error .divByZero ∧ calculate A a b "%" = .error .modByZero) ∧
    (A.isZero b = false →
      calculate A a b "/" = .ok (A.div a b) ∧ calculate A a b "%" = .ok (A.fmod a b)) ∧
    (calculate A a b "+" = .ok (A.add a b) ∧ calculate A a b "-" = .ok (A.sub a b) ∧
      calculate A a b "*" = .ok (A.mul a b) ∧ calculate A a b "^" = .ok (A.pow a b) ∧
      calculate A a b "**" = .ok (A.pow a b)) ∧
    (Err.divByZero.kind = .DivisionByZero ∧ Err.modByZero.kind = .DivisionByZero) ∧
    (∀ x z, A.stod "5" = some x → A.stod "0" = some z → A.isZero z = true →
      calculateExpression A "5/0" = .error .divByZero ∧
      calculateExpression A "5%0" = .error .modByZero) ∧
    calculateExpression exactArith "5/0" = .error .divByZero ∧
    calculateExpression exactArith "5%0" = .error .modByZero := by
  refine ⟨?_, ?_, ?_, ⟨rfl, rfl⟩, ?_, by decide!, by decide!⟩
  · intro hz; simp [calculate, hz]
  · intro hz; simp [calculate, hz]
  · simp [calculate]
  · intro x z hx hz hzero
    constructor
    · rw [calculateExpression_of_tree A "5/0"
        [⟨.NUMBER, "5"⟩, ⟨.OPERATOR, "/"⟩, ⟨.NUMBER, "0"⟩]
        (.bin "/" (.num "5") (.num "0")) (by decide) (by decide)]
      simp [evalTree, hx, hz, calculate, hzero]
    · rw [calculateExpression_of_tree A "5%0"
        [⟨.NUMBER, "5"⟩, ⟨.OPERATOR, "%"⟩, ⟨.NUMBER, "0"⟩]
        (.bin "%" (.num "5") (.num "0")) (by decide) (by decide)]
      simp [evalTree, hx, hz, calculate, hzero]

/-! ## Number literals at evaluation -/

/-- C12 (the code at the failing input). `tokenize` does not validate: `1.2.3`
is one Number token. At evaluation the outcome is exactly that of `std::stod`
on the text, in every arithmetic; `std::stod` converts the longest numeric
prefix, here `1.2`, and only throws when there is none, as on `--5`; so
`calculateExpression "1.2.3"` returns 1.2 (the rational 6/5 in exact
arithmetic), where the claim has it fail with InvalidNumberLiteral. -/
theorem malformed_literal_accepted :
    tokenize "1.2.3" = .ok [⟨.NUMBER, "1.2.3"⟩] ∧
      (∀ {β : Type} (A : Arith β),
        calculateExpression A "1.2.3" = evalTree A (.num "1.2.3")) ∧
      exactArith.stod "1.2.3" = some (some (6 / 5)) ∧
      calculateExpression exactArith "1.2.3" = .ok (some (6 / 5)) ∧
      calculateExpression exactArith "--5" = .error (.badNumber "--5") :=
  ⟨by decide,
    fun A => calculateExpression_of_tree A _ [⟨.NUMBER, "1.2.3"⟩] _ (by decide) (by decide),
    by decide!, by decide!, by decide!⟩

/-! ## Facade -/

/-- C13. The facade surfaces the failure of the earliest failing stage,
unmodified: when `tokenize` fails, `calculateExpression` fails with that error;
otherwise when `infixToPostfix` fails, with that error; otherwise its outcome is
that of `evaluatePostfix`. So `(2+a` reports the illegal character `a` and not
the open parenthesis, and `5/0)` reports the excess right parenthesis and not
the division by zero. -/
theorem facade_first_failure {β : Type} (A : Arith β) (expr : String) :
    (∀ e, tokenize expr = .error e → calculateExpression A expr = .error e) ∧
      (∀ tokens e, tokenize expr = .ok tokens → infixToPostfix tokens = .error e →
        calculateExpression A expr = .error e) ∧
      (∀ tokens output, tokenize expr = .ok tokens → infixToPostfix tokens = .ok output →
        calculateExpression A expr = evaluatePostfix A output) ∧
      calculateExpression A "(2+a" = .error (.invalidChar 'a') ∧
      (Err.invalidChar 'a').kind = .InvalidCharacter ∧
      calculateExpression A "5/0)" = .error .extraRightParen ∧
      Err.extraRightParen.kind = .UnbalancedParenthesis := by
  refine ⟨?_, ?_, ?_, ?_, rfl, ?_, rfl⟩
  · intro e h; simp [calculateExpression, h]
  · intro tokens e h1 h2; simp [calculateExpression, h1, h2]
  · intro tokens output h1 h2; simp [calculateExpression, h1, h2]
  · have h : tokenize "(2+a" = .error (.invalidChar 'a') := by decide
    simp [calculateExpression, h]
  · exact calculateExpression_of_conv_error A _
      [⟨.NUMBER, "5"⟩, ⟨.OPERATOR, "/"⟩, ⟨.NUMBER, "0"⟩, ⟨.RPAREN, ")"⟩] _
      (by decide) (by decide)

/-! ## The two-character power operator -/

/-- The facade on `a op b` for two runs of number characters. -/
theorem calculateExpression_binary_tree {β : Type} (A : Arith β) (a b op : String)
    (ha : DigitString a) (hb : DigitString b)
    (hop : op ∈ ["+", "-", "*", "/", "%", "^", "**"]) :
    calculateExpression A (a ++ op ++ b) = evalTree A (.bin op (.num a) (.num b)) := by
  have htok := tokenize_binary a b op (digitString_numChars ha) (digitString_numChars hb)
    (unsignedLiteral_head (Or.inl hb)) hop
  exact calculateExpression_of_tree A _ _ (.bin op (.num a) (.num b)) htok
    (infixToPostfix_binary a op b)

/-- C14. Two consecutive `*` are lexed as one power operator: for digit strings
`a` and `b`, `tokenize (a ** b)` is `[Number a, Operator "**", Number b]`, one
Operator token; `getPriority`, `isLeftAssociative` and `calculate` give the same
results for `**` as for `^`; so `calculateExpression (a ** b)` equals
`calculateExpression (a ^ b)` in every arithmetic. -/
theorem starstar_is_power (a b : String) (ha : DigitString a) (hb : DigitString b) :
    tokenize (a ++ "**" ++ b) = .ok [⟨.NUMBER, a⟩, ⟨.OPERATOR, "**"⟩, ⟨.NUMBER, b⟩] ∧
      getPriority "**" = getPriority "^" ∧
      isLeftAssociative "**" = isLeftAssociative "^" ∧
      (∀ {β : Type} (A : Arith β) (x y : β), calculate A x y "**" = calculate A x y "^") ∧
      (∀ {β : Type} (A : Arith β),
        calculateExpression A (a ++ "**" ++ b) = calculateExpression A (a ++ "^" ++ b)) := by
  refine ⟨?_, by decide, by decide, fun A x y => by simp [calculate], fun A => ?_⟩
  · exact tokenize_binary a b "**" (digitString_numChars ha) (digitString_numChars hb)
      (unsignedLiteral_head (Or.inl hb)) (by decide)
  · rw [calculateExpression_binary_tree A a b "**" ha hb (by decide),
      calculateExpression_binary_tree A a b "^" ha hb (by decide)]
    simp [evalTree, calculate]

/-- Witness for C14: `2**10`. -/
theorem starstar_is_power_witness :
    tokenize ("2" ++ "**" ++ "10") =
        .ok [⟨.NUMBER, "2"⟩, ⟨.OPERATOR, "**"⟩, ⟨.NUMBER, "10"⟩] ∧
      getPriority "**" = getPriority "^" ∧
      isLeftAssociative "**" = isLeftAssociative "^" ∧
      (∀ {β : Type} (A : Arith β) (x y : β), calculate A x y "**" = calculate A x y "^") ∧
      (∀ {β : Type} (A : Arith β),
        calculateExpression A ("2" ++ "**" ++ "10") =
          calculateExpression A ("2" ++ "^" ++ "10")) :=
  starstar_is_power "2" "10" ⟨by decide, by decide⟩ ⟨by decide, by decide⟩

/-! ## Whitespace -/

/-- The character before the current one only matters in front of a sign. -/
theorem tokenizeLoop_prev_irrelevant (prev prev2 : Option Char) (cs : List Char)
    (hplus : cs.head? ≠ some '+') (hminus : cs.head? ≠ some '-') (tokens : List Token)
    (buf : String) :
    tokenizeLoop prev cs tokens buf = tokenizeLoop prev2 cs tokens buf := by
  cases cs with
  | nil => rw [tokenizeLoop, tokenizeLoop]
  | cons c rest =>
    have h1 : c ≠ '+' := fun h => hplus (by rw [h]; rfl)
    have h2 : c ≠ '-' := fun h => hminus (by rw [h]; rfl)
    rw [tokenizeLoop_cons, tokenizeLoop_cons]
    simp [h1, h2]

/-- Whitespace adds no token and leaves the number buffer as it is; the loop
goes on after it with a whitespace character as the previous character. -/
theorem tokenizeLoop_whitespace (w : List Char) (hw : ∀ c ∈ w, isspace c = true)
    (hne : w ≠ []) (cs : List Char) (prev : Option Char) (tokens : List Token)
    (buf : String) :
    ∃ p, isspace p = true ∧
      tokenizeLoop prev (w ++ cs) tokens buf = tokenizeLoop (some p) cs tokens buf := by
  induction w generalizing prev with
  | nil => exact absurd rfl hne
  | cons c w ih =>
    have hc := hw c (List.mem_cons_self _ _)
    rw [List.cons_append, tokenizeLoop_cons, if_pos hc]
    cases w with
    | nil => exact ⟨c, hc, rfl⟩
    | cons d w2 =>
      exact ih (fun x hx => hw x (List.mem_cons_of_mem _ hx)) (by simp) (some c)

/-- C15 as stated fails: the space in front of `-5+3` is the character before
the sign, so the sign is lexed as an Operator token instead of a sign prefix;
`tokenize` gives four tokens instead of three and `calculateExpression` fails
with a MalformedExpression error instead of returning -2. -/
theorem whitespace_before_sign_counterexample :
    (∀ c ∈ " ".toList, isspace c = true) ∧
      tokenize (" " ++ "-5+3") =
        .ok [⟨.OPERATOR, "-"⟩, ⟨.NUMBER, "5"⟩, ⟨.OPERATOR, "+"⟩, ⟨.NUMBER, "3"⟩] ∧
      tokenize "-5+3" = .ok [⟨.NUMBER, "-5"⟩, ⟨.OPERATOR, "+"⟩, ⟨.NUMBER, "3"⟩] ∧
      tokenize (" " ++ "-5+3") ≠ tokenize "-5+3" ∧
      calculateExpression exactArith " -5+3" = .error .missingOperand ∧
      calculateExpression exactArith "-5+3" = .ok (some (-2)) ∧
      ¬ (∀ w s : String, (∀ c ∈ w.toList, isspace c = true) →
        tokenize (w ++ s) = tokenize s) := by
  refine ⟨by decide, by decide, by decide, by decide, by decide!, by decide!, ?_⟩
  intro h
  exact absurd (h " " "-5+3" (by decide)) (by decide)

/-- C15, amended. Whitespace in front of an expression that does not begin with
a sign does not influence tokenization: for every string `w` of whitespace
characters and every `s` whose first character is neither `+` nor `-` (or with
`w` empty), `tokenize (w ++ s) = tokenize s`, the same tokens or the same
failure, and so `calculateExpression (w ++ s) = calculateExpression s` in every
arithmetic. -/
theorem leading_whitespace_skipped (w s : String)
    (hw : ∀ c ∈ w.toList, isspace c = true)
    (hs : w.toList = [] ∨ (s.toList.head? ≠ some '+' ∧ s.toList.head? ≠ some '-')) :
    tokenize (w ++ s) = tokenize s ∧
      ∀ {β : Type} (A : Arith β), calculateExpression A (w ++ s) = calculateExpression A s := by
  have htok : tokenize (w ++ s) = tokenize s := by
    have hlist : (w ++ s).toList = w.toList ++ s.toList := by simp [String.toList]
    rw [tokenize, tokenize, hlist]
    by_cases hnil : w.toList = []
    · rw [hnil, List.nil_append]
    · rcases hs with hs | ⟨hplus, hminus⟩
      · exact absurd hs hnil
      · obtain ⟨p, -, hrun⟩ := tokenizeLoop_whitespace w.toList hw hnil s.toList none [] ""
        rw [hrun]
        exact tokenizeLoop_prev_irrelevant _ _ _ hplus hminus _ _
  exact ⟨htok, fun A => by rw [calculateExpression, calculateExpression, htok]⟩

/-- Witness for the amended C15: a space, a tab and a newline in front of `(2+3)*4`. -/
theorem leading_whitespace_skipped_witness :
    tokenize (" \t\n" ++ "(2+3)*4") = tokenize "(2+3)*4" ∧
      ∀ {β : Type} (A : Arith β),
        calculateExpression A (" \t\n" ++ "(2+3)*4") = calculateExpression A "(2+3)*4" :=
  leading_whitespace_skipped " \t\n" "(2+3)*4" (by decide) (Or.inr ⟨by decide, by decide⟩)

/-! ## Shape of the postfix sequence -/

/-- C16. Postfix sequences never contain parenthesis tokens: every token of a
successful `infixToPostfix` output is a Number or an Operator, so neither a
LeftParen nor a RightParen. -/
theorem postfix_has_no_parenthesis (tokens output : List Token)
    (h : infixToPostfix tokens = .ok output) :
    ∀ t ∈ output, (t.type = .NUMBER ∨ t.type = .OPERATOR) ∧
      t.type ≠ .LPAREN ∧ t.type ≠ .RPAREN := by
  intro t ht
  have hto := (infixToPostfix_reordering tokens output h).1 t ht
  refine ⟨hto, ?_, ?_⟩ <;> rcases hto with h1 | h1 <;> rw [h1] <;> decide

/-- Witness for C16: `((2+3)*4)`. -/
theorem postfix_has_no_parenthesis_witness :
    infixToPostfix
        [⟨.LPAREN, "("⟩, ⟨.LPAREN, "("⟩, ⟨.NUMBER, "2"⟩, ⟨.OPERATOR, "+"⟩, ⟨.NUMBER, "3"⟩,
          ⟨.RPAREN, ")"⟩, ⟨.OPERATOR, "*"⟩, ⟨.NUMBER, "4"⟩, ⟨.RPAREN, ")"⟩] =
        .ok [⟨.NUMBER, "2"⟩, ⟨.NUMBER, "3"⟩, ⟨.OPERATOR, "+"⟩, ⟨.NUMBER, "4"⟩,
          ⟨.OPERATOR, "*"⟩] ∧
      ∀ t ∈ [(⟨.NUMBER, "2"⟩ : Token), ⟨.NUMBER, "3"⟩, ⟨.OPERATOR, "+"⟩, ⟨.NUMBER, "4"⟩,
          ⟨.OPERATOR, "*"⟩],
        (t.type = .NUMBER ∨ t.type = .OPERATOR) ∧ t.type ≠ .LPAREN ∧ t.type ≠ .RPAREN :=
  ⟨by decide,
    postfix_has_no_parenthesis
      [⟨.LPAREN, "("⟩, ⟨.LPAREN, "("⟩, ⟨.NUMBER, "2"⟩, ⟨.OPERATOR, "+"⟩, ⟨.NUMBER, "3"⟩,
        ⟨.RPAREN, ")"⟩, ⟨.OPERATOR, "*"⟩, ⟨.NUMBER, "4"⟩, ⟨.RPAREN, ")"⟩]
      _ (by decide)⟩

theorem length_filter_parens (tokens : List Token) :
    (tokens.filter (fun t => t.type = .NUMBER ∨ t.type = .OPERATOR)).length +
        (tokens.filter (fun t => t.type = .LPAREN ∨ t.type = .RPAREN)).length =
      tokens.length := by
  induction tokens with
  | nil => rfl
  | cons t ts ih =>
    cases htype : t.type <;> simp [List.filter_cons, htype] at ih ⊢ <;> omega

/-- C20. `infixToPostfix` only reorders: a successful output is a permutation of
the Number and Operator tokens of the input (each token kept whole, none
dropped, none duplicated), its length is the input length minus the number of
parenthesis tokens, and its Number tokens are those of the input in the same
order. -/
theorem infixToPostfix_only_reorders (tokens output : List Token)
    (h : infixToPostfix tokens = .ok output) :
    List.Perm output (tokens.filter (fun t => t.type = .NUMBER ∨ t.type = .OPERATOR)) ∧
      output.length + (tokens.filter (fun t => t.type = .LPAREN ∨ t.type = .RPAREN)).length =
        tokens.length ∧
      output.filter (fun t => t.type = .NUMBER) = tokens.filter (fun t => t.type = .NUMBER) := by
  obtain ⟨-, hperm, hnum⟩ := infixToPostfix_reordering tokens output h
  refine ⟨hperm, ?_, hnum⟩
  rw [hperm.length_eq]
  exact length_filter_parens tokens

/-- Witness for C20: `(2+3)*4^5`. -/
theorem infixToPostfix_only_reorders_witness :
    List.Perm
        [(⟨.NUMBER, "2"⟩ : Token), ⟨.NUMBER, "3"⟩, ⟨.OPERATOR, "+"⟩, ⟨.NUMBER, "4"⟩,
          ⟨.NUMBER, "5"⟩, ⟨.OPERATOR, "^"⟩, ⟨.OPERATOR, "*"⟩]
        (List.filter (fun t => t.type = .NUMBER ∨ t.type = .OPERATOR)
          [(⟨.LPAREN, "("⟩ : Token), ⟨.NUMBER, "2"⟩, ⟨.OPERATOR, "+"⟩, ⟨.NUMBER, "3"⟩,
            ⟨.RPAREN, ")"⟩, ⟨.OPERATOR, "*"⟩, ⟨.NUMBER, "4"⟩, ⟨.OPERATOR, "^"⟩,
            ⟨.NUMBER, "5"⟩]) ∧
      [(⟨.NUMBER, "2"⟩ : Token), ⟨.NUMBER, "3"⟩, ⟨.OPERATOR, "+"⟩, ⟨.NUMBER, "4"⟩,
          ⟨.NUMBER, "5"⟩, ⟨.OPERATOR, "^"⟩, ⟨.OPERATOR, "*"⟩].length +
        (List.filter (fun t => t.type = .LPAREN ∨ t.type = .RPAREN)
          [(⟨.LPAREN, "("⟩ : Token), ⟨.NUMBER, "2"⟩, ⟨.OPERATOR, "+"⟩, ⟨.NUMBER, "3"⟩,
            ⟨.RPAREN, ")"⟩, ⟨.OPERATOR, "*"⟩, ⟨.NUMBER, "4"⟩, ⟨.OPERATOR, "^"⟩,
            ⟨.NUMBER, "5"⟩]).length =
        [(⟨.LPAREN, "("⟩ : Token), ⟨.NUMBER, "2"⟩, ⟨.OPERATOR, "+"⟩, ⟨.NUMBER, "3"⟩,
            ⟨.RPAREN, ")"⟩, ⟨.OPERATOR, "*"⟩, ⟨.NUMBER, "4"⟩, ⟨.OPERATOR, "^"⟩,
            ⟨.NUMBER, "5"⟩].length ∧
      List.filter (fun t => t.type = .NUMBER)
          [(⟨.NUMBER, "2"⟩ : Token), ⟨.NUMBER, "3"⟩, ⟨.OPERATOR, "+"⟩, ⟨.NUMBER, "4"⟩,
            ⟨.NUMBER, "5"⟩, ⟨.OPERATOR, "^"⟩, ⟨.OPERATOR, "*"⟩] =
        List.filter (fun t => t.type = .NUMBER)
          [(⟨.LPAREN, "("⟩ : Token), ⟨.NUMBER, "2"⟩, ⟨.OPERATOR, "+"⟩, ⟨.NUMBER, "3"⟩,
            ⟨.RPAREN, ")"⟩, ⟨.OPERATOR, "*"⟩, ⟨.NUMBER, "4"⟩, ⟨.OPERATOR, "^"⟩,
            ⟨.NUMBER, "5"⟩] :=
  infixToPostfix_only_reorders
    [⟨.LPAREN, "("⟩, ⟨.NUMBER, "2"⟩, ⟨.OPERATOR, "+"⟩, ⟨.NUMBER, "3"⟩, ⟨.RPAREN, ")"⟩,
      ⟨.OPERATOR, "*"⟩, ⟨.NUMBER, "4"⟩, ⟨.OPERATOR, "^"⟩, ⟨.NUMBER, "5"⟩]
    _ (by decide)

/-! ## The counter and the two defensive checks -/

/-- The converter fails only with the excess-right-parenthesis error of line
114 or the missing-right-parenthesis error of line 150. -/
theorem infixToPostfix_error (tokens : List Token) (e : Err)
    (h : infixToPostfix tokens = .error e) :
    e = .extraRightParen ∨ e = .missingRightParen := by
  have hinit : CounterInv ⟨[], [], 0⟩ := by simp [CounterInv, countLParen]
  rw [infixToPostfix] at h
  rcases convLoop_spec tokens ⟨[], [], 0⟩ hinit with ⟨herr, -⟩ | ⟨s2, hok, hinv2, -, -⟩
  · rw [herr] at h; left; cases h; rfl
  · rw [hok] at h
    simp only at h
    by_cases hzero : s2.parenCount ≠ 0
    · rw [if_pos hzero] at h; right; cases h; rfl
    · rw [if_neg hzero] at h
      obtain ⟨result, hr⟩ := drain_ok_of_countLParen s2.out s2.opStack
        (by unfold CounterInv at hinv2; omega)
      rw [hr] at h; cases h

/-- C19. At every step of `infixToPostfix`, on every input, the counter equals
the number of LeftParen tokens on the operator stack; so the two defensive
checks are unreachable: a right parenthesis whose decrement does not go
negative never meets the empty-stack error of line 121, with counter zero at
the end the final drain never meets a left parenthesis (line 156), and
`infixToPostfix` never fails with either error. -/
theorem counter_counts_left_parens (tokens : List Token) :
    (∀ s, convLoop tokens ⟨[], [], 0⟩ = .ok s → s.parenCount = countLParen s.opStack) ∧
      (∀ s t, convLoop tokens ⟨[], [], 0⟩ = .ok s → convStep s t ≠ .error .missingLeftParen) ∧
      (∀ s, convLoop tokens ⟨[], [], 0⟩ = .ok s → s.parenCount = 0 →
        ∃ output, drain s.out s.opStack = .ok output) ∧
      infixToPostfix tokens ≠ .error .missingLeftParen ∧
      infixToPostfix tokens ≠ .error .leftParenOnStack := by
  have hinit : CounterInv ⟨[], [], 0⟩ := by simp [CounterInv, countLParen]
  have hinv : ∀ s, convLoop tokens ⟨[], [], 0⟩ = .ok s → CounterInv s := by
    intro s hs
    rcases convLoop_spec tokens ⟨[], [], 0⟩ hinit with ⟨herr, -⟩ | ⟨s2, hok, hinv2, -, -⟩
    · rw [herr] at hs; cases hs
    · rw [hok] at hs; cases hs; exact hinv2
  refine ⟨fun s hs => hinv s hs, ?_, ?_, ?_, ?_⟩
  · intro s t hs hstep
    rcases convStep_spec s (hinv s hs) t with ⟨herr, -⟩ | ⟨s2, hok, -, -⟩
    · rw [herr] at hstep; cases hstep
    · rw [hok] at hstep; cases hstep
  · intro s hs hzero
    exact drain_ok_of_countLParen s.out s.opStack
      (by have := hinv s hs; unfold CounterInv at this; omega)
  · intro h
    rcases infixToPostfix_error tokens _ h with h1 | h1 <;> cases h1
  · intro h
    rcases infixToPostfix_error tokens _ h with h1 | h1 <;> cases h1

/-! ## Operator texts through the pipeline -/

theorem singleton_operator_known {c : Char} (h : isOperatorChar c = true) :
    String.singleton c ∈ ["+", "-", "*", "/", "%", "^", "**"] := by
  simp only [isOperatorChar, decide_eq_true_eq] at h
  rcases h with rfl | rfl | rfl | rfl | rfl | rfl <;> decide

/-- One iteration of the lexer either reports the current character or goes on
with a shorter input, having added only tokens whose operator text is one of
the seven. -/
theorem tokenizeLoop_step (prev : Option Char) (c : Char) (rest : List Char)
    (tokens : List Token) (buf : String) :
    tokenizeLoop prev (c :: rest) tokens buf = .error (.invalidChar c) ∨
      ∃ prev2 rest2 added buf2,
        tokenizeLoop prev (c :: rest) tokens buf =
          tokenizeLoop prev2 rest2 (tokens ++ added) buf2 ∧
        rest2.length ≤ rest.length ∧
        ∀ t ∈ added, t.type = .OPERATOR →
          t.value ∈ ["+", "-", "*", "/", "%", "^", "**"] := by
  rw [tokenizeLoop_cons]
  by_cases h1 : isspace c = true
  · exact Or.inr ⟨_, rest, [], _, by rw [if_pos h1, List.append_nil], le_rfl, by simp⟩
  rw [if_neg h1]
  by_cases h2 : isdigit c = true ∨ c = '.'
  · rw [if_pos h2]
    by_cases h3 : numberEnds rest = true
    · exact Or.inr ⟨_, rest, [⟨.NUMBER, buf.push c⟩], _, by rw [if_pos h3], le_rfl, by simp⟩
    · exact Or.inr ⟨_, rest, [], _, by rw [if_neg h3, List.append_nil], le_rfl, by simp⟩
  rw [if_neg h2]
  by_cases h4 : isOperatorChar c = true
  · rw [if_pos h4]
    by_cases h5 : (c = '+' ∨ c = '-') ∧ signContext prev = true
    · exact Or.inr ⟨_, rest, [], _, by rw [if_pos h5, List.append_nil], le_rfl, by simp⟩
    rw [if_neg h5]
    by_cases h6 : c = '*' ∧ rest.head? = some '*'
    · refine Or.inr ⟨_, rest.tail, [⟨.OPERATOR, "**"⟩], _, by rw [if_pos h6], by simp, ?_⟩
      intro t ht _
      simp only [List.mem_singleton] at ht
      subst ht; decide
    · refine Or.inr ⟨_, rest, [⟨.OPERATOR, String.singleton c⟩], _, by rw [if_neg h6],
        le_rfl, ?_⟩
      intro t ht _
      simp only [List.mem_singleton] at ht
      subst ht; exact singleton_operator_known h4
  rw [if_neg h4]
  by_cases h7 : c = '('
  · exact Or.inr ⟨_, rest, [⟨.LPAREN, "("⟩], _, by rw [if_pos h7], le_rfl, by simp⟩
  rw [if_neg h7]
  by_cases h8 : c = ')'
  · exact Or.inr ⟨_, rest, [⟨.RPAREN, ")"⟩], _, by rw [if_pos h8], le_rfl, by simp⟩
  · left; rw [if_neg h8]

/-- The lexer fails only with an illegal-character error, and the operator
tokens it returns carry one of the seven operator texts. -/
theorem tokenizeLoop_operators (n : Nat) :
    ∀ (cs : List Char), cs.length ≤ n → ∀ (prev : Option Char) (tokens : List Token)
      (buf : String),
      (∀ t ∈ tokens, t.type = .OPERATOR → t.value ∈ ["+", "-", "*", "/", "%", "^", "**"]) →
      (∀ e, tokenizeLoop prev cs tokens buf = .error e → ∃ c, e = .invalidChar c) ∧
      (∀ result, tokenizeLoop prev cs tokens buf = .ok result →
        ∀ t ∈ result, t.type = .OPERATOR → t.value ∈ ["+", "-", "*", "/", "%", "^", "**"]) := by
  induction n with
  | zero =>
    intro cs hlen prev tokens buf htok
    have : cs = [] := List.eq_nil_of_length_eq_zero (Nat.le_zero.1 hlen)
    subst this
    rw [tokenizeLoop]
    exact ⟨fun e he => (by cases he), fun result hr => (by cases hr; exact htok)⟩
  | succ n ih =>
    intro cs hlen prev tokens buf htok
    cases cs with
    | nil =>
      rw [tokenizeLoop]
      exact ⟨fun e he => (by cases he), fun result hr => (by cases hr; exact htok)⟩
    | cons c rest =>
      have hlen2 : rest.length ≤ n := by simpa using hlen
      rcases tokenizeLoop_step prev c rest tokens buf with h | ⟨p2, r2, added, b2, h, hl, hadd⟩
      · rw [h]
        exact ⟨fun e he => ⟨c, (by cases he; rfl)⟩, fun result hr => (by cases hr)⟩
      · rw [h]
        refine ih r2 (le_trans hl hlen2) p2 (tokens ++ added) b2 ?_
        intro t ht
        rcases List.mem_append.1 ht with ht | ht
        · exact htok t ht
        · exact hadd t ht

theorem calculate_known {β : Type} (A : Arith β) (a b : β) (op : String)
    (hop : op ∈ ["+", "-", "*", "/", "%", "^", "**"]) (bad : String) :
    calculate A a b op ≠ .error (.unknownOperator bad) := by
  simp only [List.mem_cons, List.mem_singleton, List.not_mem_nil, or_false] at hop
  rcases hop with rfl | rfl | rfl | rfl | rfl | rfl | rfl <;> simp [calculate] <;>
    split <;> simp

/-- One iteration of the loop of `evaluatePostfix`, as an equation. -/
theorem evalLoop_cons {β : Type} (A : Arith β) (token : Token) (rest : List Token)
    (numStack : List β) :
    evalLoop A (token :: rest) numStack =
      match token.type with
      | .NUMBER =>
        match A.stod token.value with
        | none => .error (.badNumber token.value)
        | some num => evalLoop A rest (num :: numStack)
      | .OPERATOR =>
        match numStack with
        | b :: a :: st =>
          match calculate A a b token.value with
          | .error e => .error e
          | .ok res => evalLoop A rest (res :: st)
        | _ => .error .missingOperand
      | _ => evalLoop A rest numStack := rfl

/-- The evaluator loop on operator texts among the seven never raises the
unknown-operator error. -/
theorem evalLoop_known {β : Type} (A : Arith β) (ts : List Token)
    (hts : ∀ t ∈ ts, t.type = .OPERATOR → t.value ∈ ["+", "-", "*", "/", "%", "^", "**"])
    (bad : String) :
    ∀ numStack, evalLoop A ts numStack ≠ .error (.unknownOperator bad) := by
  induction ts with
  | nil => intro numStack h; simp [evalLoop] at h
  | cons t ts ih =>
    intro numStack
    have hrest := ih (fun x hx => hts x (List.mem_cons_of_mem _ hx))
    rw [evalLoop_cons]
    cases htype : t.type with
    | NUMBER =>
      simp only
      cases A.stod t.value with
      | none => simp
      | some v => exact hrest _
    | OPERATOR =>
      simp only
      cases numStack with
      | nil => simp
      | cons b l =>
        cases l with
        | nil => simp
        | cons a st =>
          simp only
          have hk := calculate_known A a b t.value (hts t (List.mem_cons_self _ _) htype) bad
          cases hc : calculate A a b t.value with
          | error e => rw [hc] at hk; intro h; exact hk (by cases h; rfl)
          | ok res => exact hrest _
    | LPAREN => exact hrest _
    | RPAREN => exact hrest _

/-- C18. UnknownOperator is unreachable through the facade: when `tokenize`
succeeds, the text of every Operator token is one of the seven operator texts;
`infixToPostfix` only copies tokens of its input to its output; so for no input
string and no arithmetic does `calculateExpression` fail with the
unknown-operator error of `calculate`. -/
theorem unknown_operator_unreachable (expr : String) :
    (∀ tokens, tokenize expr = .ok tokens →
      ∀ t ∈ tokens, t.type = .OPERATOR → t.value ∈ ["+", "-", "*", "/", "%", "^", "**"]) ∧
      (∀ tokens output, infixToPostfix tokens = .ok output → ∀ t ∈ output, t ∈ tokens) ∧
      (∀ {β : Type} (A : Arith β) (bad : String),
        calculateExpression A expr ≠ .error (.unknownOperator bad)) ∧
      (∀ {β : Type} (A : Arith β) (e : Err),
        calculateExpression A expr = .error e → e.kind ≠ .UnknownOperator) := by
  have hlex := tokenizeLoop_operators expr.toList.length expr.toList le_rfl none [] ""
    (by simp)
  have hcopy : ∀ tokens output, infixToPostfix tokens = .ok output →
      ∀ t ∈ output, t ∈ tokens := by
    intro tokens output h t ht
    have hperm := (infixToPostfix_reordering tokens output h).2.1
    exact List.mem_of_mem_filter (hperm.mem_iff.1 ht)
  have hnever : ∀ {β : Type} (A : Arith β) (bad : String),
      calculateExpression A expr ≠ .error (.unknownOperator bad) := by
    intro β A bad h
    rw [calculateExpression] at h
    cases htok : tokenize expr with
    | error e =>
      rw [htok] at h
      obtain ⟨c, hc⟩ := hlex.1 e htok
      subst hc; cases h
    | ok tokens =>
      rw [htok] at h
      simp only at h
      cases hconv : infixToPostfix tokens with
      | error e =>
        rw [hconv] at h
        rcases infixToPostfix_error tokens e hconv with h1 | h1 <;> subst h1 <;> cases h
      | ok output =>
        rw [hconv] at h
        simp only [evaluatePostfix] at h
        have hknown : ∀ t ∈ output, t.type = .OPERATOR →
            t.value ∈ ["+", "-", "*", "/", "%", "^", "**"] :=
          fun t ht => hlex.2 tokens htok t (hcopy tokens output hconv t ht)
        have hloop := evalLoop_known A output hknown bad []
        cases hl : evalLoop A output [] with
        | error e => rw [hl] at h hloop; exact hloop (by cases h; rfl)
        | ok ns =>
          rw [hl] at h
          match ns, h with
          | [], h => cases h
          | [_], h => cases h
          | _ :: _ :: _, h => cases h
  refine ⟨hlex.2, hcopy, hnever, ?_⟩
  intro β A e he hk
  cases e <;> simp [Err.kind] at hk
  exact hnever A _ he

/-! ## Operand-count discipline -/

theorem calculate_plain {β : Type} (A : Arith β) (a b : β) (op : String)
    (hop : op ∈ ["+", "-", "*"]) : ∃ res, calculate A a b op = .ok res := by
  simp only [List.mem_cons, List.mem_singleton, List.not_mem_nil, or_false] at hop
  rcases hop with rfl | rfl | rfl <;> simp [calculate]

theorem height_cons (t : Token) (ts : List Token) :
    height (t :: ts) =
      (if t.type = .NUMBER then 1 else if t.type = .OPERATOR then -1 else 0) + height ts := rfl

/-- The evaluator loop on valid numbers and the operators `+ - *`, started on a
stack of any size: it fails, with the missing-operand error, exactly when the
stack size plus the height is below 2 just before some operator; otherwise it
returns a stack whose size has grown by the height of the sequence. -/
theorem evalLoop_height {β : Type} (A : Arith β) (ts : List Token)
    (hts : ∀ t ∈ ts, (t.type = .NUMBER ∧ (A.stod t.value).isSome = true) ∨
      (t.type = .OPERATOR ∧ t.value ∈ ["+", "-", "*"])) :
    ∀ numStack : List β,
      ((∃ pre t post, ts = pre ++ t :: post ∧ t.type = .OPERATOR ∧
          (numStack.length : Int) + height pre < 2) ∧
        evalLoop A ts numStack = .error .missingOperand) ∨
      ((∀ pre t post, ts = pre ++ t :: post → t.type = .OPERATOR →
          2 ≤ (numStack.length : Int) + height pre) ∧
        ∃ result, evalLoop A ts numStack = .ok result ∧
          (result.length : Int) = numStack.length + height ts) := by
  induction ts with
  | nil =>
    intro numStack
    right
    refine ⟨?_, numStack, by simp [evalLoop], by simp [height]⟩
    intro pre t post h
    simp at h
  | cons x ts ih =>
    intro numStack
    have hrest := ih (fun y hy => hts y (List.mem_cons_of_mem _ hy))
    -- every split of `x :: ts` is at `x` itself or inside `ts`
    have hsplit : ∀ pre t post, x :: ts = pre ++ t :: post →
        (pre = [] ∧ t = x ∧ post = ts) ∨ ∃ pre2, pre = x :: pre2 ∧ ts = pre2 ++ t :: post := by
      intro pre t post h
      cases pre with
      | nil => simp at h; exact Or.inl ⟨rfl, h.1.symm, h.2.symm⟩
      | cons y pre2 =>
        simp at h
        exact Or.inr ⟨pre2, by rw [h.1], h.2⟩
    rw [evalLoop_cons]
    rcases hts x (List.mem_cons_self _ _) with ⟨htype, hval⟩ | ⟨htype, hval⟩
    · -- a number is pushed
      obtain ⟨v, hv⟩ := Option.isSome_iff_exists.1 hval
      simp only [htype, hv]
      rcases hrest (v :: numStack) with
        ⟨⟨pre, t, post, hs, ht, hlt⟩, herr⟩ | ⟨hall, result, hok, hlen⟩
      · left
        refine ⟨⟨x :: pre, t, post, by rw [hs]; rfl, ht, ?_⟩, herr⟩
        rw [height_cons]; simp only [htype, if_true]
        simp only [List.length_cons] at hlt; push_cast at hlt; omega
      · right
        refine ⟨?_, result, hok, ?_⟩
        · intro pre t post hs ht
          rcases hsplit pre t post hs with ⟨rfl, rfl, rfl⟩ | ⟨pre2, rfl, hs2⟩
          · rw [htype] at ht; cases ht
          · have := hall pre2 t post hs2 ht
            rw [height_cons]; simp only [htype, if_true]
            simp only [List.length_cons] at this; push_cast at this; omega
        · rw [height_cons]; simp only [htype, if_true]
          simp only [List.length_cons] at hlen; push_cast at hlen; omega
    · -- an operator pops two operands and pushes one result
      have hne : x.type ≠ .NUMBER := by rw [htype]; decide
      simp only [htype]
      cases numStack with
      | nil =>
        left
        exact ⟨⟨[], x, ts, rfl, htype, by simp [height]⟩, rfl⟩
      | cons b l =>
        cases l with
        | nil =>
          left
          exact ⟨⟨[], x, ts, rfl, htype, by simp [height]⟩, rfl⟩
        | cons a st =>
          obtain ⟨res, hres⟩ := calculate_plain A a b x.value hval
          simp only [hres]
          rcases hrest (res :: st) with
            ⟨⟨pre, t, post, hs, ht, hlt⟩, herr⟩ | ⟨hall, result, hok, hlen⟩
          · left
            refine ⟨⟨x :: pre, t, post, by rw [hs]; rfl, ht, ?_⟩, herr⟩
            rw [height_cons]; simp only [htype, hne, if_true, if_false]
            simp only [List.length_cons] at hlt ⊢; push_cast at hlt ⊢; omega
          · right
            refine ⟨?_, result, hok, ?_⟩
            · intro pre t post hs ht
              rcases hsplit pre t post hs with ⟨rfl, rfl, rfl⟩ | ⟨pre2, rfl, hs2⟩
              · simp only [height, List.length_cons]; push_cast; omega
              · have := hall pre2 t post hs2 ht
                rw [height_cons]; simp only [htype, hne, if_true, if_false]
                simp only [List.length_cons] at this ⊢; push_cast at this ⊢; omega
            · rw [height_cons]; simp only [htype, hne, if_true, if_false]
              simp only [List.length_cons] at hlen ⊢; push_cast at hlen ⊢; omega

/-- The facade on an input whose postfix form is empty. -/
theorem calculateExpression_of_empty {β : Type} (A : Arith β) (expr : String)
    (tokens : List Token) (htok : tokenize expr = .ok tokens)
    (hconv : infixToPostfix tokens = .ok []) :
    calculateExpression A expr = .error .extraOperand := by
  rw [calculateExpression, htok]
  simp only [hconv]
  rfl

/-- C17. Operand-count discipline of the evaluator: on a postfix sequence of
Number tokens with valid literals and Operator tokens among `+ - *`,
`evaluatePostfix` succeeds if and only if the height (numbers minus operators)
is at least 2 just before every operator and exactly 1 for the whole sequence;
otherwise it fails with a MalformedExpression error. The empty sequence, two
numbers, and a number followed by an operator all fail, and so do
`calculateExpression ""` and `calculateExpression "()"`. -/
theorem operand_count_discipline {β : Type} (A : Arith β) (tokens : List Token)
    (htokens : ∀ t ∈ tokens, (t.type = .NUMBER ∧ (A.stod t.value).isSome = true) ∨
      (t.type = .OPERATOR ∧ t.value ∈ ["+", "-", "*"])) :
    ((∃ v, evaluatePostfix A tokens = .ok v) ↔ OperandDiscipline tokens) ∧
      (¬ OperandDiscipline tokens →
        ∃ e, evaluatePostfix A tokens = .error e ∧ e.kind = .MalformedExpression) ∧
      evaluatePostfix A [] = .error .extraOperand ∧
      (∀ n1 n2 x1 x2, A.stod n1 = some x1 → A.stod n2 = some x2 →
        evaluatePostfix A [⟨.NUMBER, n1⟩, ⟨.NUMBER, n2⟩] = .error .extraOperand) ∧
      (∀ n1 op x1, A.stod n1 = some x1 →
        evaluatePostfix A [⟨.NUMBER, n1⟩, ⟨.OPERATOR, op⟩] = .error .missingOperand) ∧
      calculateExpression A "" = .error .extraOperand ∧
      calculateExpression A "()" = .error .extraOperand ∧
      Err.extraOperand.kind = .MalformedExpression ∧
      Err.missingOperand.kind = .MalformedExpression := by
  have hmain : (OperandDiscipline tokens ∧ ∃ v, evaluatePostfix A tokens = .ok v) ∨
      (¬ OperandDiscipline tokens ∧
        ∃ e, evaluatePostfix A tokens = .error e ∧ e.kind = .MalformedExpression) := by
    rcases evalLoop_height A tokens htokens [] with
      ⟨⟨pre, t, post, hs, ht, hlt⟩, herr⟩ | ⟨hall, result, hok, hlen⟩
    · right
      refine ⟨?_, .missingOperand, by simp [evaluatePostfix, herr], rfl⟩
      intro hd
      have := hd.1 pre t post hs ht
      simp at hlt; omega
    · simp only [List.length_nil, Nat.cast_zero, zero_add] at hall hlen
      by_cases hone : height tokens = 1
      · left
        refine ⟨⟨hall, hone⟩, ?_⟩
        match result, hlen, hok with
        | [v], _, hok => exact ⟨v, by simp [evaluatePostfix, hok]⟩
        | [], hlen, _ => simp at hlen; omega
        | _ :: _ :: _, hlen, _ => simp at hlen; omega
      · right
        refine ⟨fun hd => hone hd.2, .extraOperand, ?_, rfl⟩
        match result, hlen, hok with
        | [v], hlen, _ => simp at hlen; omega
        | [], _, hok => simp [evaluatePostfix, hok]
        | _ :: _ :: _, _, hok => simp [evaluatePostfix, hok]
  refine ⟨⟨?_, ?_⟩, ?_, rfl, ?_, ?_, ?_, ?_, rfl, rfl⟩
  · rintro ⟨v, hv⟩
    rcases hmain with ⟨hd, -⟩ | ⟨-, e, he, -⟩
    · exact hd
    · rw [he] at hv; cases hv
  · intro hd
    rcases hmain with ⟨-, h⟩ | ⟨hnd, -⟩
    · exact h
    · exact absurd hd hnd
  · intro hnd
    rcases hmain with ⟨hd, -⟩ | ⟨-, h⟩
    · exact absurd hd hnd
    · exact h
  · intro n1 n2 x1 x2 h1 h2
    simp [evaluatePostfix, evalLoop, h1, h2]
  · intro n1 op x1 h1
    simp [evaluatePostfix, evalLoop, h1]
  · exact calculateExpression_of_empty A "" [] (by decide) (by decide)
  · exact calculateExpression_of_empty A "()" [⟨.LPAREN, "("⟩, ⟨.RPAREN, ")"⟩]
      (by decide) (by decide)

/-- Witness for C17: the postfix sequence `2 3 4 * +` in exact arithmetic. -/
theorem operand_count_discipline_witness :
    ((∃ v, evaluatePostfix exactArith
        [⟨.NUMBER, "2"⟩, ⟨.NUMBER, "3"⟩, ⟨.NUMBER, "4"⟩, ⟨.OPERATOR, "*"⟩,
          ⟨.OPERATOR, "+"⟩] = .ok v) ↔
      OperandDiscipline
        [⟨.NUMBER, "2"⟩, ⟨.NUMBER, "3"⟩, ⟨.NUMBER, "4"⟩, ⟨.OPERATOR, "*"⟩,
          ⟨.OPERATOR, "+"⟩]) ∧
      (¬ OperandDiscipline
          [⟨.NUMBER, "2"⟩, ⟨.NUMBER, "3"⟩, ⟨.NUMBER, "4"⟩, ⟨.OPERATOR, "*"⟩,
            ⟨.OPERATOR, "+"⟩] →
        ∃ e, evaluatePostfix exactArith
          [⟨.NUMBER, "2"⟩, ⟨.NUMBER, "3"⟩, ⟨.NUMBER, "4"⟩, ⟨.OPERATOR, "*"⟩,
            ⟨.OPERATOR, "+"⟩] = .error e ∧ e.kind = .MalformedExpression) ∧
      evaluatePostfix exactArith [] = .error .extraOperand ∧
      (∀ n1 n2 x1 x2, exactArith.stod n1 = some x1 → exactArith.stod n2 = some x2 →
        evaluatePostfix exactArith [⟨.NUMBER, n1⟩, ⟨.NUMBER, n2⟩] = .error .extraOperand) ∧
      (∀ n1 op x1, exactArith.stod n1 = some x1 →
        evaluatePostfix exactArith [⟨.NUMBER, n1⟩, ⟨.OPERATOR, op⟩] =
          .error .missingOperand) ∧
      calculateExpression exactArith "" = .error .extraOperand ∧
      calculateExpression exactArith "()" = .error .extraOperand ∧
      Err.extraOperand.kind = .MalformedExpression ∧
      Err.missingOperand.kind = .MalformedExpression :=
  operand_count_discipline exactArith
    [⟨.NUMBER, "2"⟩, ⟨.NUMBER, "3"⟩, ⟨.NUMBER, "4"⟩, ⟨.OPERATOR, "*"⟩, ⟨.OPERATOR, "+"⟩]
    (by decide!)

end Calculator
